import Mathlib

/-
Verification of the RESP (Redis Serialization Protocol) decoder.

The decoder is a recursive descent parser over a character cursor.  We model
the cursor by explicit state passing: a parsing function takes the remaining
input (a List Char) and returns an optional result together with the input
left unconsumed.  Strings are modelled as List Char; the byte length of a
Rust String (String::len) is modelled by the sum of the UTF-8 sizes of the
characters.  Recursion through nested aggregates is driven by a fuel
parameter; since every recursive descent first consumes at least the tag
character, a fuel of (input length + 1) can never be exhausted, so the
top-level entry point runs with exactly that fuel.
-/

namespace RespParser

/-- The value model: one variant per RESP wire form.  The numeric value of a
Double is not modelled (floating point is outside the embedding); the variant
stores the accepted lexeme instead. -/
inductive RESP where
  | SimpleString (s : List Char)
  | SimpleError (s : List Char)
  | Integer (n : Int)
  | BulkString (s : List Char)
  | NullBulkString
  | Array (xs : List RESP)
  | NullArray
  | Null
  | Boolean (b : Bool)
  | Double (raw : List Char)
  | BigNumber (s : List Char)
  | BulkError (s : List Char)
  | VerbatimString (encoding : List Char) (data : List Char)
  | Map (xs : List (RESP × RESP))
  | Set (xs : List RESP)
  | Push (xs : List RESP)
  | Inline (toks : List (List Char))

/-- Rust String::len counts UTF-8 bytes; model it by summing utf8Size. -/
def utf8Len (s : List Char) : Nat := (s.map Char.utf8Size).sum

/-- The two-character terminator used for every simple form. -/
def crlf : List Char := ['\r', '\n']

/-- Inner loop of parse_until: after the first stop character matched, every
further stop character must match the next input character exactly. -/
def matchStop : List Char → List Char → Option (List Char)
  | [], bs => some bs
  | s :: ss, bs =>
    match bs with
    | [] => none
    | b :: bs2 => if b = s then matchStop ss bs2 else none

/-- parse_until from the source: accumulate characters not in stop; on the
first character belonging to stop, it must be the head of stop and the rest
of stop must follow verbatim in the input; reaching end of input fails. -/
def parse_until (stop : List Char) : List Char → Option (List Char × List Char)
  | [] => none
  | x :: bs =>
    if x ∈ stop then
      match stop with
      | [] => none
      | s0 :: ss =>
        if x = s0 then (matchStop ss bs).map (fun r => ([], r)) else none
    else
      (parse_until stop bs).map (fun p => (x :: p.1, p.2))

/-- parse_simple: read one CR-LF-terminated line. -/
def parse_simple (bytes : List Char) : Option (List Char × List Char) :=
  parse_until crlf bytes

/-- Decimal value of a digit string (most significant first). -/
def digitsToNat (l : List Char) : Nat :=
  l.foldl (fun a c => 10 * a + (c.toNat - 48)) 0

/-- Rust i64/isize FromStr: optional single sign, one or more ASCII digits,
value within the 64-bit signed range. -/
def parseI64 (s : List Char) : Option Int :=
  let p : Int × List Char :=
    match s with
    | '+' :: r => (1, r)
    | '-' :: r => (-1, r)
    | _ => (1, s)
  if p.2.isEmpty then none
  else if p.2.all Char.isDigit then
    let v : Int := p.1 * (digitsToNat p.2 : Int)
    if v < -(2 ^ 63) ∨ 2 ^ 63 - 1 < v then none else some v
  else none

/-- parse_number::<isize> / ::<i64>: read a line, then parse it as a signed
64-bit decimal integer. -/
def parse_numberZ (bytes : List Char) : Option (Int × List Char) :=
  (parse_simple bytes).bind fun p =>
    (parseI64 p.1).map fun v => (v, p.2)

/-- Longest prefix of ASCII digits, with the remainder. -/
def spanDigits : List Char → List Char × List Char
  | [] => ([], [])
  | c :: r =>
    if c.isDigit then
      let p := spanDigits r
      (c :: p.1, p.2)
    else ([], c :: r)

/-- Lexical acceptance of Rust f64::from_str: optional sign, then the
case-insensitive literals inf/infinity/nan, or a mantissa with at least one
digit, an optional fractional part and an optional exponent. -/
def isF64Lit (s : List Char) : Bool :=
  let t : List Char :=
    match s with
    | '+' :: r => r
    | '-' :: r => r
    | _ => s
  let low := t.map Char.toLower
  if low = ['i', 'n', 'f'] ∨ low = ['i', 'n', 'f', 'i', 'n', 'i', 't', 'y'] ∨
      low = ['n', 'a', 'n'] then true
  else
    let p1 := spanDigits t
    let p2 : List Char × List Char :=
      match p1.2 with
      | '.' :: rr => spanDigits rr
      | _ => ([], p1.2)
    if p1.1.isEmpty && p2.1.isEmpty then false
    else
      match p2.2 with
      | [] => true
      | e :: rr =>
        if e = 'e' ∨ e = 'E' then
          let rr2 : List Char :=
            match rr with
            | '+' :: z => z
            | '-' :: z => z
            | _ => rr
          let p3 := spanDigits rr2
          !p3.1.isEmpty && p3.2.isEmpty
        else false

/-- The line read for a Double, kept when it is an accepted f64 lexeme. -/
def parse_f64line (bytes : List Char) : Option (List Char × List Char) :=
  (parse_simple bytes).bind fun p =>
    if isF64Lit p.1 then some (p.1, p.2) else none

/-- strip_prefix("+") as used by parse_big_number. -/
def stripPlus : List Char → List Char
  | '+' :: r => r
  | s => s

/-- parse_big_number: read a line; its first character must be a sign or a
digit and every further character a digit; a leading plus is stripped. -/
def parse_big_number (bytes : List Char) : Option (List Char × List Char) :=
  (parse_simple bytes).bind fun p =>
    match p.1 with
    | [] => none
    | first :: rest =>
      if (first = '+' ∨ first = '-' ∨ first.isDigit) ∧ rest.all Char.isDigit then
        some (stripPlus p.1, p.2)
      else none

/-- parse_bulk: read a signed length; -1 returns immediately with empty data
and no payload line consumed; otherwise read one further line as the data. -/
def parse_bulk (bytes : List Char) : Option (Int × List Char × List Char) :=
  (parse_numberZ bytes).bind fun p =>
    if p.1 = -1 then some (p.1, [], p.2)
    else (parse_simple p.2).map fun q => (p.1, q.1, q.2)

/-- Unicode White_Space, as used by Rust char::is_whitespace. -/
def rustIsWhitespace (c : Char) : Bool :=
  c.toNat = 0x09 || c.toNat = 0x0A || c.toNat = 0x0B || c.toNat = 0x0C ||
  c.toNat = 0x0D || c.toNat = 0x20 || c.toNat = 0x85 || c.toNat = 0xA0 ||
  c.toNat = 0x1680 || (0x2000 ≤ c.toNat && c.toNat ≤ 0x200A) ||
  c.toNat = 0x2028 || c.toNat = 0x2029 || c.toNat = 0x202F ||
  c.toNat = 0x205F || c.toNat = 0x3000

/-- split_whitespace: maximal runs of non-whitespace characters. -/
def splitWsAux : List Char → List Char → List (List Char)
  | [], acc => if acc.isEmpty then [] else [acc.reverse]
  | c :: cs, acc =>
    if rustIsWhitespace c then
      if acc.isEmpty then splitWsAux cs []
      else acc.reverse :: splitWsAux cs []
    else splitWsAux cs (c :: acc)

def splitWs (s : List Char) : List (List Char) := splitWsAux s []

/-- parse_inline: the whole remaining input, re-prefixed with the first
character, split on whitespace; an empty token list fails. -/
def parse_inline (initial : Char) (bytes : List Char) : Option (List (List Char)) :=
  let toks := (splitWs (initial :: bytes)).filter (fun t => !t.isEmpty)
  if toks.isEmpty then none else some toks

/-- split_once(":"): split at the first colon, dropping it. -/
def splitOnceColon : List Char → Option (List Char × List Char)
  | [] => none
  | c :: cs =>
    if c = ':' then some ([], cs)
    else (splitOnceColon cs).map (fun p => (c :: p.1, p.2))

/-- The body of the element loop of parse_array / the set and push cases,
parameterised by the parser used for one element. -/
def elemsWith (p : List Char → Option (RESP × List Char)) :
    Nat → List Char → Option (List RESP × List Char)
  | 0, bs => some ([], bs)
  | n + 1, bs =>
    (p bs).bind fun v =>
      (elemsWith p n v.2).map fun w => (v.1 :: w.1, w.2)

/-- The body of the pair loop of parse_map. -/
def pairsWith (p : List Char → Option (RESP × List Char)) :
    Nat → List Char → Option (List (RESP × RESP) × List Char)
  | 0, bs => some ([], bs)
  | n + 1, bs =>
    (p bs).bind fun k =>
      (p k.2).bind fun v =>
        (pairsWith p n v.2).map fun w => ((k.1, v.1) :: w.1, w.2)

/-- parse_array: read a signed count, then decode that many nested values
(a nonpositive count runs the loop zero times), each with internal = true. -/
def parse_arrayW (rec : List Char → Bool → Option (RESP × List Char))
    (bytes : List Char) : Option (Int × List RESP × List Char) :=
  (parse_numberZ bytes).bind fun p =>
    (elemsWith (fun bs => rec bs true) p.1.toNat p.2).map fun w =>
      (p.1, w.1, w.2)

/-- parse_map: read a signed count, then decode that many key/value pairs. -/
def parse_mapW (rec : List Char → Bool → Option (RESP × List Char))
    (bytes : List Char) : Option (Int × List (RESP × RESP) × List Char) :=
  (parse_numberZ bytes).bind fun p =>
    (pairsWith (fun bs => rec bs true) p.1.toNat p.2).map fun w =>
      (p.1, w.1, w.2)

/-- The fifteen-way dispatch of parse_internal on its first character: one
case per type-tag constant of the source, plus the inline fallback. -/
inductive Tag where
  | tSimpleString
  | tSimpleError
  | tInteger
  | tBulkString
  | tArray
  | tNull
  | tBoolean
  | tDouble
  | tBigNumber
  | tBulkError
  | tVerbatimString
  | tMap
  | tSet
  | tPush
  | tOther

/-- Which match arm of parse_internal a first character selects.  The tag
constants are pairwise distinct characters, so this reproduces the Rust
match exactly. -/
def tagOf (x : Char) : Tag :=
  if x = '+' then .tSimpleString
  else if x = '-' then .tSimpleError
  else if x = ':' then .tInteger
  else if x = '$' then .tBulkString
  else if x = '*' then .tArray
  else if x = '_' then .tNull
  else if x = '#' then .tBoolean
  else if x = ',' then .tDouble
  else if x = '(' then .tBigNumber
  else if x = '!' then .tBulkError
  else if x = '=' then .tVerbatimString
  else if x = '%' then .tMap
  else if x = '~' then .tSet
  else if x = '>' then .tPush
  else .tOther

/-- The SIMPLE_STRING arm. -/
def stepSimpleString (bs : List Char) : Option (RESP × List Char) :=
  (parse_simple bs).map fun p => (RESP.SimpleString p.1, p.2)

/-- The SIMPLE_ERROR arm. -/
def stepSimpleError (bs : List Char) : Option (RESP × List Char) :=
  (parse_simple bs).map fun p => (RESP.SimpleError p.1, p.2)

/-- The INTEGER arm. -/
def stepInteger (bs : List Char) : Option (RESP × List Char) :=
  (parse_numberZ bs).map fun p => (RESP.Integer p.1, p.2)

/-- The BULK_STRING arm. -/
def stepBulkString (bs : List Char) : Option (RESP × List Char) :=
  (parse_bulk bs).bind fun p =>
    if p.1 < -1 then none
    else if p.1 = -1 then some (RESP.NullBulkString, p.2.2)
    else if p.1.toNat ≠ utf8Len p.2.1 then none
    else some (RESP.BulkString p.2.1, p.2.2)

/-- The ARRAY arm. -/
def stepArray (rec : List Char → Bool → Option (RESP × List Char))
    (bs : List Char) : Option (RESP × List Char) :=
  (parse_arrayW rec bs).bind fun p =>
    if p.1 < -1 then none
    else if p.1 = -1 then some (RESP.NullArray, p.2.2)
    else if p.1.toNat ≠ p.2.1.length then none
    else some (RESP.Array p.2.1, p.2.2)

/-- The NULL arm. -/
def stepNull (bs : List Char) : Option (RESP × List Char) :=
  (parse_simple bs).bind fun p =>
    if p.1.isEmpty then some (RESP.Null, p.2) else none

/-- The BOOLEAN arm. -/
def stepBoolean (bs : List Char) : Option (RESP × List Char) :=
  (parse_simple bs).bind fun p =>
    match p.1 with
    | ['t'] => some (RESP.Boolean true, p.2)
    | ['f'] => some (RESP.Boolean false, p.2)
    | _ => none

/-- The DOUBLE arm. -/
def stepDouble (bs : List Char) : Option (RESP × List Char) :=
  (parse_f64line bs).map fun p => (RESP.Double p.1, p.2)

/-- The BIG_NUMBER arm. -/
def stepBigNumber (bs : List Char) : Option (RESP × List Char) :=
  (parse_big_number bs).map fun p => (RESP.BigNumber p.1, p.2)

/-- The BULK_ERROR arm. -/
def stepBulkError (bs : List Char) : Option (RESP × List Char) :=
  (parse_bulk bs).bind fun p =>
    if p.1 < 0 then none
    else if p.1.toNat ≠ utf8Len p.2.1 then none
    else some (RESP.BulkError p.2.1, p.2.2)

/-- The VERBATIM_STRING arm. -/
def stepVerbatim (bs : List Char) : Option (RESP × List Char) :=
  (parse_bulk bs).bind fun p =>
    if p.1 < 4 then none
    else if p.1.toNat ≠ utf8Len p.2.1 then none
    else
      (splitOnceColon p.2.1).bind fun q =>
        if utf8Len q.1 ≠ 3 then none
        else some (RESP.VerbatimString q.1 q.2, p.2.2)

/-- The MAP arm. -/
def stepMap (rec : List Char → Bool → Option (RESP × List Char))
    (bs : List Char) : Option (RESP × List Char) :=
  (parse_mapW rec bs).bind fun p =>
    if p.1 < 0 then none
    else if p.1.toNat ≠ p.2.1.length then none
    else some (RESP.Map p.2.1, p.2.2)

/-- The SET arm. -/
def stepSet (rec : List Char → Bool → Option (RESP × List Char))
    (bs : List Char) : Option (RESP × List Char) :=
  (parse_arrayW rec bs).bind fun p =>
    if p.1 < 0 then none
    else if p.1.toNat ≠ p.2.1.length then none
    else some (RESP.Set p.2.1, p.2.2)

/-- The PUSH arm: fails outright when decoding a nested element. -/
def stepPush (rec : List Char → Bool → Option (RESP × List Char))
    (bs : List Char) (internal : Bool) : Option (RESP × List Char) :=
  (parse_arrayW rec bs).bind fun p =>
    if p.1 < 0 ∨ internal then none
    else if p.1.toNat ≠ p.2.1.length then none
    else some (RESP.Push p.2.1, p.2.2)

/-- The fallback arm: inline command decoding; it consumes all input. -/
def stepInline (x : Char) (bs : List Char) : Option (RESP × List Char) :=
  (parse_inline x bs).map fun toks => (RESP.Inline toks, [])

/-- One step of parse_internal: the type-tag dispatch of the source, with the
recursive occurrences abstracted into the parameter rec. -/
def parseStep (rec : List Char → Bool → Option (RESP × List Char))
    (bytes : List Char) (internal : Bool) : Option (RESP × List Char) :=
  match bytes with
  | [] => none
  | x :: bs =>
    match tagOf x with
    | .tSimpleString => stepSimpleString bs
    | .tSimpleError => stepSimpleError bs
    | .tInteger => stepInteger bs
    | .tBulkString => stepBulkString bs
    | .tArray => stepArray rec bs
    | .tNull => stepNull bs
    | .tBoolean => stepBoolean bs
    | .tDouble => stepDouble bs
    | .tBigNumber => stepBigNumber bs
    | .tBulkError => stepBulkError bs
    | .tVerbatimString => stepVerbatim bs
    | .tMap => stepMap rec bs
    | .tSet => stepSet rec bs
    | .tPush => stepPush rec bs internal
    | .tOther => stepInline x bs

/-- parse_internal, with fuel bounding the nesting depth. -/
def parseInternalF : Nat → List Char → Bool → Option (RESP × List Char)
  | 0 => fun _ _ => none
  | fuel + 1 => parseStep (parseInternalF fuel)

/-- The public entry point: parse_internal with internal = false, run with
enough fuel for any input of this length. -/
def RESP.parse (data : List Char) : Option RESP :=
  (parseInternalF (data.length + 1) data false).map Prod.fst

theorem parseInternalF_zero : parseInternalF 0 = fun _ _ => none := rfl

theorem parseInternalF_succ (fuel : Nat) :
    parseInternalF (fuel + 1) = parseStep (parseInternalF fuel) := rfl

/-- A line payload is free of carriage returns and line feeds. -/
@[reducible]
def CRLFfree (s : List Char) : Prop := ∀ c ∈ s, c ≠ '\r' ∧ c ≠ '\n'

/- ### Characterisation of parse_until on the CR LF stop string -/

theorem matchStop_sound :
    ∀ ss bs r, matchStop ss bs = some r → bs = ss ++ r := by
  intro ss
  induction ss with
  | nil => intro bs r h; simpa [matchStop] using h
  | cons s ss ih =>
    intro bs r h
    cases bs with
    | nil => simp [matchStop] at h
    | cons b bs2 =>
      simp only [matchStop] at h
      split_ifs at h with hb
      subst hb
      simpa using ih bs2 r h

theorem matchStop_complete : ∀ ss r, matchStop ss (ss ++ r) = some r := by
  intro ss
  induction ss with
  | nil => intro r; rfl
  | cons s ss ih => intro r; simp [matchStop, ih]

theorem pu_sound : ∀ w d r, parse_until crlf w = some (d, r) →
    w = d ++ '\r' :: '\n' :: r ∧ CRLFfree d := by
  intro w
  induction w with
  | nil => intro d r h; simp [parse_until] at h
  | cons x bs ih =>
    intro d r h
    simp only [parse_until, crlf] at h
    by_cases hmem : x ∈ ['\r', '\n']
    · rw [if_pos hmem] at h
      by_cases hcr : x = '\r'
      · rw [if_pos hcr] at h
        subst hcr
        obtain ⟨r0, hr0, heq⟩ := Option.map_eq_some'.mp h
        rw [Prod.mk.injEq] at heq
        obtain ⟨hd, hr⟩ := heq
        subst hd; subst hr
        have hbs := matchStop_sound _ _ _ hr0
        subst hbs
        exact ⟨rfl, by intro c hc; simp at hc⟩
      · rw [if_neg hcr] at h
        exact absurd h (by simp)
    · rw [if_neg hmem] at h
      obtain ⟨p0, hp0, heq⟩ := Option.map_eq_some'.mp h
      rw [Prod.mk.injEq] at heq
      obtain ⟨hd, hr⟩ := heq
      obtain ⟨h1, h2⟩ := ih p0.1 p0.2 (by exact hp0)
      subst hd; subst hr
      refine ⟨by rw [h1]; simp, ?_⟩
      intro c hc
      rcases List.mem_cons.mp hc with rfl | hc2
      · simp only [List.mem_cons, List.not_mem_nil, or_false] at hmem
        push_neg at hmem
        exact hmem
      · exact h2 c hc2

theorem pu_complete : ∀ d r, CRLFfree d →
    parse_until crlf (d ++ '\r' :: '\n' :: r) = some (d, r) := by
  intro d
  induction d with
  | nil =>
    intro r _
    simp [parse_until, crlf, matchStop]
  | cons c d ih =>
    intro r hfree
    have hc := hfree c (List.mem_cons_self c d)
    have hmem : c ∉ crlf := by
      intro hm
      simp only [crlf, List.mem_cons, List.not_mem_nil, or_false] at hm
      rcases hm with h1 | h1
      · exact hc.1 h1
      · exact hc.2 h1
    have hrec := ih r (fun a ha => hfree a (List.mem_cons_of_mem c ha))
    simp [parse_until, if_neg hmem, hrec]

theorem pu_append (w d r t : List Char) (h : parse_until crlf w = some (d, r)) :
    parse_until crlf (w ++ t) = some (d, r ++ t) := by
  obtain ⟨hw, hfree⟩ := pu_sound w d r h
  subst hw
  have := pu_complete d (r ++ t) hfree
  simpa using this

theorem pu_suffix (w : List Char) (p : List Char × List Char)
    (h : parse_until crlf w = some p) : List.IsSuffix p.2 w := by
  obtain ⟨hw, _⟩ := pu_sound w p.1 p.2 h
  exact ⟨p.1 ++ ['\r', '\n'], by rw [hw]; simp⟩

/- ### Append and suffix lemmas for the non-recursive helpers -/

theorem parse_simple_append (bs : List Char) (p : List Char × List Char)
    (t : List Char) (h : parse_simple bs = some p) :
    parse_simple (bs ++ t) = some (p.1, p.2 ++ t) :=
  pu_append bs p.1 p.2 t h

theorem parse_simple_suffix (bs : List Char) (p : List Char × List Char)
    (h : parse_simple bs = some p) : List.IsSuffix p.2 bs :=
  pu_suffix bs p h

theorem parse_numberZ_append (bs : List Char) (p : Int × List Char)
    (t : List Char) (h : parse_numberZ bs = some p) :
    parse_numberZ (bs ++ t) = some (p.1, p.2 ++ t) := by
  simp only [parse_numberZ] at h ⊢
  obtain ⟨q, hq, h2⟩ := Option.bind_eq_some.mp h
  obtain ⟨v, hv, hp⟩ := Option.map_eq_some'.mp h2
  subst hp
  rw [parse_simple_append _ _ _ hq]
  simp [hv]

theorem parse_numberZ_suffix (bs : List Char) (p : Int × List Char)
    (h : parse_numberZ bs = some p) : List.IsSuffix p.2 bs := by
  simp only [parse_numberZ] at h
  obtain ⟨q, hq, h2⟩ := Option.bind_eq_some.mp h
  obtain ⟨v, hv, hp⟩ := Option.map_eq_some'.mp h2
  subst hp
  exact parse_simple_suffix _ _ hq

theorem parse_bulk_append (bs : List Char) (p : Int × List Char × List Char)
    (t : List Char) (h : parse_bulk bs = some p) :
    parse_bulk (bs ++ t) = some (p.1, p.2.1, p.2.2 ++ t) := by
  simp only [parse_bulk] at h ⊢
  obtain ⟨q, hq, h2⟩ := Option.bind_eq_some.mp h
  rw [parse_numberZ_append _ _ _ hq]
  simp only [Option.some_bind]
  by_cases hneg : q.1 = -1
  · rw [if_pos hneg] at h2
    have hp := Option.some_inj.mp h2
    subst hp
    simp [hneg]
  · rw [if_neg hneg] at h2
    obtain ⟨w, hw, hp⟩ := Option.map_eq_some'.mp h2
    subst hp
    rw [if_neg hneg, parse_simple_append _ _ _ hw]
    simp

theorem parse_bulk_suffix (bs : List Char) (p : Int × List Char × List Char)
    (h : parse_bulk bs = some p) : List.IsSuffix p.2.2 bs := by
  simp only [parse_bulk] at h
  obtain ⟨q, hq, h2⟩ := Option.bind_eq_some.mp h
  have hq2 := parse_numberZ_suffix _ _ hq
  by_cases hneg : q.1 = -1
  · rw [if_pos hneg] at h2
    have hp := Option.some_inj.mp h2
    subst hp
    exact hq2
  · rw [if_neg hneg] at h2
    obtain ⟨w, hw, hp⟩ := Option.map_eq_some'.mp h2
    subst hp
    exact (parse_simple_suffix _ _ hw).trans hq2

theorem parse_big_number_append (bs : List Char) (p : List Char × List Char)
    (t : List Char) (h : parse_big_number bs = some p) :
    parse_big_number (bs ++ t) = some (p.1, p.2 ++ t) := by
  simp only [parse_big_number] at h ⊢
  obtain ⟨q, hq, h2⟩ := Option.bind_eq_some.mp h
  rw [parse_simple_append _ _ _ hq]
  simp only [Option.some_bind]
  split at h2
  · simp at h2
  · rename_i first rest heq
    split_ifs at h2 with hcond
    · have hp := Option.some_inj.mp h2
      subst hp
      simp [heq, hcond]

theorem parse_big_number_suffix (bs : List Char) (p : List Char × List Char)
    (h : parse_big_number bs = some p) : List.IsSuffix p.2 bs := by
  simp only [parse_big_number] at h
  obtain ⟨q, hq, h2⟩ := Option.bind_eq_some.mp h
  have hq2 := parse_simple_suffix _ _ hq
  split at h2
  · simp at h2
  · split_ifs at h2 with hcond
    · have hp := Option.some_inj.mp h2
      subst hp
      exact hq2

theorem parse_f64line_append (bs : List Char) (p : List Char × List Char)
    (t : List Char) (h : parse_f64line bs = some p) :
    parse_f64line (bs ++ t) = some (p.1, p.2 ++ t) := by
  simp only [parse_f64line] at h ⊢
  obtain ⟨q, hq, h2⟩ := Option.bind_eq_some.mp h
  rw [parse_simple_append _ _ _ hq]
  simp only [Option.some_bind]
  split_ifs at h2 with hcond
  · have hp := Option.some_inj.mp h2
    subst hp
    simp [hcond]

theorem parse_f64line_suffix (bs : List Char) (p : List Char × List Char)
    (h : parse_f64line bs = some p) : List.IsSuffix p.2 bs := by
  simp only [parse_f64line] at h
  obtain ⟨q, hq, h2⟩ := Option.bind_eq_some.mp h
  have hq2 := parse_simple_suffix _ _ hq
  split_ifs at h2 with hcond
  · have hp := Option.some_inj.mp h2
    subst hp
    exact hq2

/- ### Monotonicity in the fuel -/

theorem elemsWith_mono {p q : List Char → Option (RESP × List Char)}
    (hpq : ∀ bs v, p bs = some v → q bs = some v) :
    ∀ n bs w, elemsWith p n bs = some w → elemsWith q n bs = some w := by
  intro n
  induction n with
  | zero => intro bs w h; exact h
  | succ n ih =>
    intro bs w h
    simp only [elemsWith] at h ⊢
    obtain ⟨a, ha, hf⟩ := Option.bind_eq_some.mp h
    refine Option.bind_eq_some.mpr ⟨a, hpq _ _ ha, ?_⟩
    obtain ⟨b, hb, hw⟩ := Option.map_eq_some'.mp hf
    exact Option.map_eq_some'.mpr ⟨b, ih _ _ hb, hw⟩

theorem pairsWith_mono {p q : List Char → Option (RESP × List Char)}
    (hpq : ∀ bs v, p bs = some v → q bs = some v) :
    ∀ n bs w, pairsWith p n bs = some w → pairsWith q n bs = some w := by
  intro n
  induction n with
  | zero => intro bs w h; exact h
  | succ n ih =>
    intro bs w h
    simp only [pairsWith] at h ⊢
    obtain ⟨a, ha, hf⟩ := Option.bind_eq_some.mp h
    refine Option.bind_eq_some.mpr ⟨a, hpq _ _ ha, ?_⟩
    obtain ⟨b, hb, hf2⟩ := Option.bind_eq_some.mp hf
    refine Option.bind_eq_some.mpr ⟨b, hpq _ _ hb, ?_⟩
    obtain ⟨c, hc, hw⟩ := Option.map_eq_some'.mp hf2
    exact Option.map_eq_some'.mpr ⟨c, ih _ _ hc, hw⟩

theorem parse_arrayW_mono {p q : List Char → Bool → Option (RESP × List Char)}
    (hpq : ∀ bs i v, p bs i = some v → q bs i = some v) :
    ∀ bs w, parse_arrayW p bs = some w → parse_arrayW q bs = some w := by
  intro bs w h
  simp only [parse_arrayW] at h ⊢
  obtain ⟨a, ha, hf⟩ := Option.bind_eq_some.mp h
  refine Option.bind_eq_some.mpr ⟨a, ha, ?_⟩
  obtain ⟨b, hb, hw⟩ := Option.map_eq_some'.mp hf
  exact Option.map_eq_some'.mpr
    ⟨b, elemsWith_mono (fun bs v hv => hpq bs true v hv) _ _ _ hb, hw⟩

theorem parse_mapW_mono {p q : List Char → Bool → Option (RESP × List Char)}
    (hpq : ∀ bs i v, p bs i = some v → q bs i = some v) :
    ∀ bs w, parse_mapW p bs = some w → parse_mapW q bs = some w := by
  intro bs w h
  simp only [parse_mapW] at h ⊢
  obtain ⟨a, ha, hf⟩ := Option.bind_eq_some.mp h
  refine Option.bind_eq_some.mpr ⟨a, ha, ?_⟩
  obtain ⟨b, hb, hw⟩ := Option.map_eq_some'.mp hf
  exact Option.map_eq_some'.mpr
    ⟨b, pairsWith_mono (fun bs v hv => hpq bs true v hv) _ _ _ hb, hw⟩

theorem parseStep_mono {p q : List Char → Bool → Option (RESP × List Char)}
    (hpq : ∀ bs i v, p bs i = some v → q bs i = some v) :
    ∀ bs i v, parseStep p bs i = some v → parseStep q bs i = some v := by
  intro bs i v h
  cases bs with
  | nil => simp [parseStep] at h
  | cons x w =>
    simp only [parseStep] at h ⊢
    split at h <;>
      first
        | exact h
        | (obtain ⟨a, ha, hf⟩ := Option.bind_eq_some.mp h
           refine Option.bind_eq_some.mpr ⟨a, ?_, hf⟩
           first
             | exact parse_arrayW_mono hpq _ _ ha
             | exact parse_mapW_mono hpq _ _ ha)

theorem parseInternalF_mono : ∀ f1 f2, f1 ≤ f2 → ∀ bs i v,
    parseInternalF f1 bs i = some v → parseInternalF f2 bs i = some v := by
  intro f1
  induction f1 with
  | zero => intro f2 _ bs i v h; simp [parseInternalF_zero] at h
  | succ f ih =>
    intro f2 hle bs i v h
    obtain ⟨g, rfl⟩ : ∃ g, f2 = g + 1 := ⟨f2 - 1, by omega⟩
    rw [parseInternalF_succ] at h ⊢
    exact parseStep_mono (fun bs i v hv => ih g (by omega) bs i v hv) bs i v h

/- ### The rest returned by a successful parse is a suffix of the input -/

theorem elemsWith_suffix {p : List Char → Option (RESP × List Char)}
    (hsuf : ∀ bs v, p bs = some v → List.IsSuffix v.2 bs) :
    ∀ n bs w, elemsWith p n bs = some w → List.IsSuffix w.2 bs := by
  intro n
  induction n with
  | zero =>
    intro bs w h
    have hw := Option.some_inj.mp h
    subst hw
    exact List.suffix_rfl
  | succ n ih =>
    intro bs w h
    simp only [elemsWith] at h
    obtain ⟨a, ha, hf⟩ := Option.bind_eq_some.mp h
    obtain ⟨b, hb, hw⟩ := Option.map_eq_some'.mp hf
    subst hw
    exact (ih _ _ hb).trans (hsuf _ _ ha)

theorem pairsWith_suffix {p : List Char → Option (RESP × List Char)}
    (hsuf : ∀ bs v, p bs = some v → List.IsSuffix v.2 bs) :
    ∀ n bs w, pairsWith p n bs = some w → List.IsSuffix w.2 bs := by
  intro n
  induction n with
  | zero =>
    intro bs w h
    have hw := Option.some_inj.mp h
    subst hw
    exact List.suffix_rfl
  | succ n ih =>
    intro bs w h
    simp only [pairsWith] at h
    obtain ⟨a, ha, hf⟩ := Option.bind_eq_some.mp h
    obtain ⟨b, hb, hf2⟩ := Option.bind_eq_some.mp hf
    obtain ⟨c, hc, hw⟩ := Option.map_eq_some'.mp hf2
    subst hw
    exact ((ih _ _ hc).trans (hsuf _ _ hb)).trans (hsuf _ _ ha)

theorem parse_arrayW_suffix {p : List Char → Bool → Option (RESP × List Char)}
    (hsuf : ∀ bs i v, p bs i = some v → List.IsSuffix v.2 bs) :
    ∀ bs w, parse_arrayW p bs = some w → List.IsSuffix w.2.2 bs := by
  intro bs w h
  simp only [parse_arrayW] at h
  obtain ⟨a, ha, hf⟩ := Option.bind_eq_some.mp h
  obtain ⟨b, hb, hw⟩ := Option.map_eq_some'.mp hf
  subst hw
  exact (elemsWith_suffix (fun bs v hv => hsuf bs true v hv) _ _ _ hb).trans
    (parse_numberZ_suffix _ _ ha)

theorem parse_mapW_suffix {p : List Char → Bool → Option (RESP × List Char)}
    (hsuf : ∀ bs i v, p bs i = some v → List.IsSuffix v.2 bs) :
    ∀ bs w, parse_mapW p bs = some w → List.IsSuffix w.2.2 bs := by
  intro bs w h
  simp only [parse_mapW] at h
  obtain ⟨a, ha, hf⟩ := Option.bind_eq_some.mp h
  obtain ⟨b, hb, hw⟩ := Option.map_eq_some'.mp hf
  subst hw
  exact (pairsWith_suffix (fun bs v hv => hsuf bs true v hv) _ _ _ hb).trans
    (parse_numberZ_suffix _ _ ha)

theorem stepBulkString_suffix (w : List Char) (v : RESP × List Char)
    (h : stepBulkString w = some v) : List.IsSuffix v.2 w := by
  obtain ⟨a, ha, hf⟩ := Option.bind_eq_some.mp h
  have hs := parse_bulk_suffix _ _ ha
  split_ifs at hf <;>
    (have hv := Option.some_inj.mp hf; subst hv; exact hs)

theorem stepArray_suffix {p : List Char → Bool → Option (RESP × List Char)}
    (hsuf : ∀ bs i v, p bs i = some v → List.IsSuffix v.2 bs)
    (w : List Char) (v : RESP × List Char)
    (h : stepArray p w = some v) : List.IsSuffix v.2 w := by
  obtain ⟨a, ha, hf⟩ := Option.bind_eq_some.mp h
  have hs := parse_arrayW_suffix hsuf _ _ ha
  split_ifs at hf <;>
    (have hv := Option.some_inj.mp hf; subst hv; exact hs)

theorem stepNull_suffix (w : List Char) (v : RESP × List Char)
    (h : stepNull w = some v) : List.IsSuffix v.2 w := by
  obtain ⟨a, ha, hf⟩ := Option.bind_eq_some.mp h
  split_ifs at hf
  have hv := Option.some_inj.mp hf
  subst hv
  exact parse_simple_suffix _ _ ha

theorem stepBoolean_suffix (w : List Char) (v : RESP × List Char)
    (h : stepBoolean w = some v) : List.IsSuffix v.2 w := by
  obtain ⟨a, ha, hf⟩ := Option.bind_eq_some.mp h
  have hs := parse_simple_suffix _ _ ha
  split at hf
  · have hv := Option.some_inj.mp hf
    subst hv
    exact hs
  · have hv := Option.some_inj.mp hf
    subst hv
    exact hs
  · simp at hf

theorem stepBulkError_suffix (w : List Char) (v : RESP × List Char)
    (h : stepBulkError w = some v) : List.IsSuffix v.2 w := by
  obtain ⟨a, ha, hf⟩ := Option.bind_eq_some.mp h
  have hs := parse_bulk_suffix _ _ ha
  split_ifs at hf
  have hv := Option.some_inj.mp hf
  subst hv
  exact hs

theorem stepVerbatim_suffix (w : List Char) (v : RESP × List Char)
    (h : stepVerbatim w = some v) : List.IsSuffix v.2 w := by
  obtain ⟨a, ha, hf⟩ := Option.bind_eq_some.mp h
  have hs := parse_bulk_suffix _ _ ha
  split_ifs at hf
  obtain ⟨b, hb, hf2⟩ := Option.bind_eq_some.mp hf
  split_ifs at hf2
  have hv := Option.some_inj.mp hf2
  subst hv
  exact hs

theorem stepMap_suffix {p : List Char → Bool → Option (RESP × List Char)}
    (hsuf : ∀ bs i v, p bs i = some v → List.IsSuffix v.2 bs)
    (w : List Char) (v : RESP × List Char)
    (h : stepMap p w = some v) : List.IsSuffix v.2 w := by
  obtain ⟨a, ha, hf⟩ := Option.bind_eq_some.mp h
  have hs := parse_mapW_suffix hsuf _ _ ha
  split_ifs at hf
  have hv := Option.some_inj.mp hf
  subst hv
  exact hs

theorem stepSet_suffix {p : List Char → Bool → Option (RESP × List Char)}
    (hsuf : ∀ bs i v, p bs i = some v → List.IsSuffix v.2 bs)
    (w : List Char) (v : RESP × List Char)
    (h : stepSet p w = some v) : List.IsSuffix v.2 w := by
  obtain ⟨a, ha, hf⟩ := Option.bind_eq_some.mp h
  have hs := parse_arrayW_suffix hsuf _ _ ha
  split_ifs at hf
  have hv := Option.some_inj.mp hf
  subst hv
  exact hs

theorem stepPush_suffix {p : List Char → Bool → Option (RESP × List Char)}
    (hsuf : ∀ bs i v, p bs i = some v → List.IsSuffix v.2 bs)
    (w : List Char) (i : Bool) (v : RESP × List Char)
    (h : stepPush p w i = some v) : List.IsSuffix v.2 w := by
  obtain ⟨a, ha, hf⟩ := Option.bind_eq_some.mp h
  have hs := parse_arrayW_suffix hsuf _ _ ha
  split_ifs at hf
  have hv := Option.some_inj.mp hf
  subst hv
  exact hs

theorem parseStep_suffix {p : List Char → Bool → Option (RESP × List Char)}
    (hsuf : ∀ bs i v, p bs i = some v → List.IsSuffix v.2 bs) :
    ∀ bs i v, parseStep p bs i = some v → List.IsSuffix v.2 bs := by
  intro bs i v h
  cases bs with
  | nil => simp [parseStep] at h
  | cons x w =>
    have hcons : ∀ r : List Char, List.IsSuffix r w → List.IsSuffix r (x :: w) :=
      fun r hr => hr.trans ⟨[x], rfl⟩
    simp only [parseStep] at h
    split at h
    · obtain ⟨a, ha, hv⟩ := Option.map_eq_some'.mp h
      subst hv
      exact hcons _ (parse_simple_suffix _ _ ha)
    · obtain ⟨a, ha, hv⟩ := Option.map_eq_some'.mp h
      subst hv
      exact hcons _ (parse_simple_suffix _ _ ha)
    · obtain ⟨a, ha, hv⟩ := Option.map_eq_some'.mp h
      subst hv
      exact hcons _ (parse_numberZ_suffix _ _ ha)
    · exact hcons _ (stepBulkString_suffix _ _ h)
    · exact hcons _ (stepArray_suffix hsuf _ _ h)
    · exact hcons _ (stepNull_suffix _ _ h)
    · exact hcons _ (stepBoolean_suffix _ _ h)
    · obtain ⟨a, ha, hv⟩ := Option.map_eq_some'.mp h
      subst hv
      exact hcons _ (parse_f64line_suffix _ _ ha)
    · obtain ⟨a, ha, hv⟩ := Option.map_eq_some'.mp h
      subst hv
      exact hcons _ (parse_big_number_suffix _ _ ha)
    · exact hcons _ (stepBulkError_suffix _ _ h)
    · exact hcons _ (stepVerbatim_suffix _ _ h)
    · exact hcons _ (stepMap_suffix hsuf _ _ h)
    · exact hcons _ (stepSet_suffix hsuf _ _ h)
    · exact hcons _ (stepPush_suffix hsuf _ _ _ h)
    · obtain ⟨a, ha, hv⟩ := Option.map_eq_some'.mp h
      subst hv
      exact List.nil_suffix

theorem parseInternalF_suffix : ∀ fuel bs i v,
    parseInternalF fuel bs i = some v → List.IsSuffix v.2 bs := by
  intro fuel
  induction fuel with
  | zero => intro bs i v h; simp [parseInternalF_zero] at h
  | succ f ih =>
    intro bs i v h
    rw [parseInternalF_succ] at h
    exact parseStep_suffix ih bs i v h

/- ### A successful parse with a nonempty rest never inspects the rest:
appending further input appends it, unchanged, to the rest -/

theorem elemsWith_append {p : List Char → Option (RESP × List Char)}
    (hsuf : ∀ bs v, p bs = some v → List.IsSuffix v.2 bs)
    (happ : ∀ bs v t, p bs = some v → v.2 ≠ [] → p (bs ++ t) = some (v.1, v.2 ++ t)) :
    ∀ n bs w t, elemsWith p n bs = some w → w.2 ≠ [] →
      elemsWith p n (bs ++ t) = some (w.1, w.2 ++ t) := by
  intro n
  induction n with
  | zero =>
    intro bs w t h hne
    have hw := Option.some_inj.mp h
    subst hw
    rfl
  | succ n ih =>
    intro bs w t h hne
    simp only [elemsWith] at h ⊢
    obtain ⟨a, ha, hf⟩ := Option.bind_eq_some.mp h
    obtain ⟨b, hb, hw⟩ := Option.map_eq_some'.mp hf
    subst hw
    have hbsuf := elemsWith_suffix hsuf n a.2 b hb
    have hane : a.2 ≠ [] := by
      intro hnil
      rw [hnil] at hbsuf
      exact hne (List.suffix_nil.mp hbsuf)
    rw [happ _ _ _ ha hane]
    simp only [Option.some_bind]
    rw [ih _ _ _ hb hne]
    rfl

theorem pairsWith_append {p : List Char → Option (RESP × List Char)}
    (hsuf : ∀ bs v, p bs = some v → List.IsSuffix v.2 bs)
    (happ : ∀ bs v t, p bs = some v → v.2 ≠ [] → p (bs ++ t) = some (v.1, v.2 ++ t)) :
    ∀ n bs w t, pairsWith p n bs = some w → w.2 ≠ [] →
      pairsWith p n (bs ++ t) = some (w.1, w.2 ++ t) := by
  intro n
  induction n with
  | zero =>
    intro bs w t h hne
    have hw := Option.some_inj.mp h
    subst hw
    rfl
  | succ n ih =>
    intro bs w t h hne
    simp only [pairsWith] at h ⊢
    obtain ⟨a, ha, hf⟩ := Option.bind_eq_some.mp h
    obtain ⟨b, hb, hf2⟩ := Option.bind_eq_some.mp hf
    obtain ⟨c, hc, hw⟩ := Option.map_eq_some'.mp hf2
    subst hw
    have hcsuf := pairsWith_suffix hsuf n b.2 c hc
    have hbne : b.2 ≠ [] := by
      intro hnil
      rw [hnil] at hcsuf
      exact hne (List.suffix_nil.mp hcsuf)
    have hasuf : List.IsSuffix b.2 a.2 := hsuf _ _ hb
    have hane : a.2 ≠ [] := by
      intro hnil
      rw [hnil] at hasuf
      exact hbne (List.suffix_nil.mp hasuf)
    rw [happ _ _ _ ha hane]
    simp only [Option.some_bind]
    rw [happ _ _ _ hb hbne]
    simp only [Option.some_bind]
    rw [ih _ _ _ hc hne]
    rfl

theorem parse_arrayW_append {p : List Char → Bool → Option (RESP × List Char)}
    (hsuf : ∀ bs i v, p bs i = some v → List.IsSuffix v.2 bs)
    (happ : ∀ bs i v t, p bs i = some v → v.2 ≠ [] → p (bs ++ t) i = some (v.1, v.2 ++ t)) :
    ∀ bs w t, parse_arrayW p bs = some w → w.2.2 ≠ [] →
      parse_arrayW p (bs ++ t) = some (w.1, w.2.1, w.2.2 ++ t) := by
  intro bs w t h hne
  simp only [parse_arrayW] at h ⊢
  obtain ⟨a, ha, hf⟩ := Option.bind_eq_some.mp h
  obtain ⟨b, hb, hw⟩ := Option.map_eq_some'.mp hf
  subst hw
  rw [parse_numberZ_append _ _ _ ha]
  simp only [Option.some_bind]
  rw [elemsWith_append (fun bs v hv => hsuf bs true v hv)
      (fun bs v t hv hvne => happ bs true v t hv hvne) _ _ _ _ hb hne]
  rfl

theorem parse_mapW_append {p : List Char → Bool → Option (RESP × List Char)}
    (hsuf : ∀ bs i v, p bs i = some v → List.IsSuffix v.2 bs)
    (happ : ∀ bs i v t, p bs i = some v → v.2 ≠ [] → p (bs ++ t) i = some (v.1, v.2 ++ t)) :
    ∀ bs w t, parse_mapW p bs = some w → w.2.2 ≠ [] →
      parse_mapW p (bs ++ t) = some (w.1, w.2.1, w.2.2 ++ t) := by
  intro bs w t h hne
  simp only [parse_mapW] at h ⊢
  obtain ⟨a, ha, hf⟩ := Option.bind_eq_some.mp h
  obtain ⟨b, hb, hw⟩ := Option.map_eq_some'.mp hf
  subst hw
  rw [parse_numberZ_append _ _ _ ha]
  simp only [Option.some_bind]
  rw [pairsWith_append (fun bs v hv => hsuf bs true v hv)
      (fun bs v t hv hvne => happ bs true v t hv hvne) _ _ _ _ hb hne]
  rfl

theorem stepSimpleString_append (w t : List Char) (v : RESP × List Char)
    (h : stepSimpleString w = some v) :
    stepSimpleString (w ++ t) = some (v.1, v.2 ++ t) := by
  obtain ⟨a, ha, hv⟩ := Option.map_eq_some'.mp h
  subst hv
  simp only [stepSimpleString]
  rw [parse_simple_append _ _ _ ha]
  rfl

theorem stepSimpleError_append (w t : List Char) (v : RESP × List Char)
    (h : stepSimpleError w = some v) :
    stepSimpleError (w ++ t) = some (v.1, v.2 ++ t) := by
  obtain ⟨a, ha, hv⟩ := Option.map_eq_some'.mp h
  subst hv
  simp only [stepSimpleError]
  rw [parse_simple_append _ _ _ ha]
  rfl

theorem stepInteger_append (w t : List Char) (v : RESP × List Char)
    (h : stepInteger w = some v) :
    stepInteger (w ++ t) = some (v.1, v.2 ++ t) := by
  obtain ⟨a, ha, hv⟩ := Option.map_eq_some'.mp h
  subst hv
  simp only [stepInteger]
  rw [parse_numberZ_append _ _ _ ha]
  rfl

theorem stepDouble_append (w t : List Char) (v : RESP × List Char)
    (h : stepDouble w = some v) :
    stepDouble (w ++ t) = some (v.1, v.2 ++ t) := by
  obtain ⟨a, ha, hv⟩ := Option.map_eq_some'.mp h
  subst hv
  simp only [stepDouble]
  rw [parse_f64line_append _ _ _ ha]
  rfl

theorem stepBigNumber_append (w t : List Char) (v : RESP × List Char)
    (h : stepBigNumber w = some v) :
    stepBigNumber (w ++ t) = some (v.1, v.2 ++ t) := by
  obtain ⟨a, ha, hv⟩ := Option.map_eq_some'.mp h
  subst hv
  simp only [stepBigNumber]
  rw [parse_big_number_append _ _ _ ha]
  rfl

theorem stepBulkString_append (w t : List Char) (v : RESP × List Char)
    (h : stepBulkString w = some v) :
    stepBulkString (w ++ t) = some (v.1, v.2 ++ t) := by
  simp only [stepBulkString] at h ⊢
  obtain ⟨a, ha, hf⟩ := Option.bind_eq_some.mp h
  rw [parse_bulk_append _ _ _ ha]
  simp only [Option.some_bind]
  split_ifs at hf with h1 h2 h3
  · have hv := Option.some_inj.mp hf
    subst hv
    rw [if_neg h1, if_pos h2]
  · have hv := Option.some_inj.mp hf
    subst hv
    rw [if_neg h1, if_neg h2, if_neg h3]

theorem stepNull_append (w t : List Char) (v : RESP × List Char)
    (h : stepNull w = some v) :
    stepNull (w ++ t) = some (v.1, v.2 ++ t) := by
  simp only [stepNull] at h ⊢
  obtain ⟨a, ha, hf⟩ := Option.bind_eq_some.mp h
  rw [parse_simple_append _ _ _ ha]
  simp only [Option.some_bind]
  split_ifs at hf with h1
  have hv := Option.some_inj.mp hf
  subst hv
  rw [if_pos h1]

theorem stepBoolean_append (w t : List Char) (v : RESP × List Char)
    (h : stepBoolean w = some v) :
    stepBoolean (w ++ t) = some (v.1, v.2 ++ t) := by
  simp only [stepBoolean] at h ⊢
  obtain ⟨a, ha, hf⟩ := Option.bind_eq_some.mp h
  rw [parse_simple_append _ _ _ ha]
  simp only [Option.some_bind]
  split at hf
  · have hv := Option.some_inj.mp hf
    subst hv
    rfl
  · have hv := Option.some_inj.mp hf
    subst hv
    rfl
  · simp at hf

theorem stepBulkError_append (w t : List Char) (v : RESP × List Char)
    (h : stepBulkError w = some v) :
    stepBulkError (w ++ t) = some (v.1, v.2 ++ t) := by
  simp only [stepBulkError] at h ⊢
  obtain ⟨a, ha, hf⟩ := Option.bind_eq_some.mp h
  rw [parse_bulk_append _ _ _ ha]
  simp only [Option.some_bind]
  split_ifs at hf with h1 h2
  have hv := Option.some_inj.mp hf
  subst hv
  rw [if_neg h1, if_neg h2]

theorem stepVerbatim_append (w t : List Char) (v : RESP × List Char)
    (h : stepVerbatim w = some v) :
    stepVerbatim (w ++ t) = some (v.1, v.2 ++ t) := by
  simp only [stepVerbatim] at h ⊢
  obtain ⟨a, ha, hf⟩ := Option.bind_eq_some.mp h
  rw [parse_bulk_append _ _ _ ha]
  simp only [Option.some_bind]
  split_ifs at hf with h1 h2
  obtain ⟨b, hb, hf2⟩ := Option.bind_eq_some.mp hf
  split_ifs at hf2 with h3
  have hv := Option.some_inj.mp hf2
  subst hv
  rw [if_neg h1, if_neg h2, hb]
  simp only [Option.some_bind]
  rw [if_neg h3]

theorem stepArray_append {p : List Char → Bool → Option (RESP × List Char)}
    (hsuf : ∀ bs i v, p bs i = some v → List.IsSuffix v.2 bs)
    (happ : ∀ bs i v t, p bs i = some v → v.2 ≠ [] → p (bs ++ t) i = some (v.1, v.2 ++ t))
    (w t : List Char) (v : RESP × List Char)
    (h : stepArray p w = some v) (hne : v.2 ≠ []) :
    stepArray p (w ++ t) = some (v.1, v.2 ++ t) := by
  simp only [stepArray] at h ⊢
  obtain ⟨a, ha, hf⟩ := Option.bind_eq_some.mp h
  split_ifs at hf with h1 h2 h3
  · have hv := Option.some_inj.mp hf
    subst hv
    rw [parse_arrayW_append hsuf happ _ _ _ ha hne]
    simp only [Option.some_bind]
    rw [if_neg h1, if_pos h2]
  · have hv := Option.some_inj.mp hf
    subst hv
    rw [parse_arrayW_append hsuf happ _ _ _ ha hne]
    simp only [Option.some_bind]
    rw [if_neg h1, if_neg h2, if_neg h3]

theorem stepMap_append {p : List Char → Bool → Option (RESP × List Char)}
    (hsuf : ∀ bs i v, p bs i = some v → List.IsSuffix v.2 bs)
    (happ : ∀ bs i v t, p bs i = some v → v.2 ≠ [] → p (bs ++ t) i = some (v.1, v.2 ++ t))
    (w t : List Char) (v : RESP × List Char)
    (h : stepMap p w = some v) (hne : v.2 ≠ []) :
    stepMap p (w ++ t) = some (v.1, v.2 ++ t) := by
  simp only [stepMap] at h ⊢
  obtain ⟨a, ha, hf⟩ := Option.bind_eq_some.mp h
  split_ifs at hf with h1 h2
  have hv := Option.some_inj.mp hf
  subst hv
  rw [parse_mapW_append hsuf happ _ _ _ ha hne]
  simp only [Option.some_bind]
  rw [if_neg h1, if_neg h2]

theorem stepSet_append {p : List Char → Bool → Option (RESP × List Char)}
    (hsuf : ∀ bs i v, p bs i = some v → List.IsSuffix v.2 bs)
    (happ : ∀ bs i v t, p bs i = some v → v.2 ≠ [] → p (bs ++ t) i = some (v.1, v.2 ++ t))
    (w t : List Char) (v : RESP × List Char)
    (h : stepSet p w = some v) (hne : v.2 ≠ []) :
    stepSet p (w ++ t) = some (v.1, v.2 ++ t) := by
  simp only [stepSet] at h ⊢
  obtain ⟨a, ha, hf⟩ := Option.bind_eq_some.mp h
  split_ifs at hf with h1 h2
  have hv := Option.some_inj.mp hf
  subst hv
  rw [parse_arrayW_append hsuf happ _ _ _ ha hne]
  simp only [Option.some_bind]
  rw [if_neg h1, if_neg h2]

theorem stepPush_append {p : List Char → Bool → Option (RESP × List Char)}
    (hsuf : ∀ bs i v, p bs i = some v → List.IsSuffix v.2 bs)
    (happ : ∀ bs i v t, p bs i = some v → v.2 ≠ [] → p (bs ++ t) i = some (v.1, v.2 ++ t))
    (w t : List Char) (i : Bool) (v : RESP × List Char)
    (h : stepPush p w i = some v) (hne : v.2 ≠ []) :
    stepPush p (w ++ t) i = some (v.1, v.2 ++ t) := by
  simp only [stepPush] at h ⊢
  obtain ⟨a, ha, hf⟩ := Option.bind_eq_some.mp h
  split_ifs at hf with h1 h2
  have hv := Option.some_inj.mp hf
  subst hv
  rw [parse_arrayW_append hsuf happ _ _ _ ha hne]
  simp only [Option.some_bind]
  rw [if_neg h1, if_neg h2]

theorem parseStep_append {p : List Char → Bool → Option (RESP × List Char)}
    (hsuf : ∀ bs i v, p bs i = some v → List.IsSuffix v.2 bs)
    (happ : ∀ bs i v t, p bs i = some v → v.2 ≠ [] → p (bs ++ t) i = some (v.1, v.2 ++ t)) :
    ∀ bs i v t, parseStep p bs i = some v → v.2 ≠ [] →
      parseStep p (bs ++ t) i = some (v.1, v.2 ++ t) := by
  intro bs i v t h hne
  cases bs with
  | nil => simp [parseStep] at h
  | cons x w =>
    have hxw : (x :: w) ++ t = x :: (w ++ t) := rfl
    rw [hxw]
    simp only [parseStep] at h ⊢
    split at h
    · exact stepSimpleString_append _ _ _ h
    · exact stepSimpleError_append _ _ _ h
    · exact stepInteger_append _ _ _ h
    · exact stepBulkString_append _ _ _ h
    · exact stepArray_append hsuf happ _ _ _ h hne
    · exact stepNull_append _ _ _ h
    · exact stepBoolean_append _ _ _ h
    · exact stepDouble_append _ _ _ h
    · exact stepBigNumber_append _ _ _ h
    · exact stepBulkError_append _ _ _ h
    · exact stepVerbatim_append _ _ _ h
    · exact stepMap_append hsuf happ _ _ _ h hne
    · exact stepSet_append hsuf happ _ _ _ h hne
    · exact stepPush_append hsuf happ _ _ _ _ h hne
    · obtain ⟨a, ha, hv⟩ := Option.map_eq_some'.mp h
      subst hv
      exact absurd rfl hne

theorem parseInternalF_append : ∀ fuel bs i v t,
    parseInternalF fuel bs i = some v → v.2 ≠ [] →
      parseInternalF fuel (bs ++ t) i = some (v.1, v.2 ++ t) := by
  intro fuel
  induction fuel with
  | zero => intro bs i v t h _; simp [parseInternalF_zero] at h
  | succ f ih =>
    intro bs i v t h hne
    rw [parseInternalF_succ] at h ⊢
    exact parseStep_append (parseInternalF_suffix f)
      (fun bs i v t hv hvne => ih bs i v t hv hvne) bs i v t h hne

/-- parse_internal on empty input fails at any fuel. -/
theorem parseInternalF_nil : ∀ fuel i, parseInternalF fuel [] i = none := by
  intro fuel i
  cases fuel with
  | zero => rfl
  | succ f => rfl

/- ### Helpers for stating and proving the claims -/

theorem parse_eq (data : List Char) :
    RESP.parse data = (parseInternalF (data.length + 1) data false).map Prod.fst := rfl

theorem parse_cons (x : Char) (bs : List Char) :
    RESP.parse (x :: bs) =
      (parseStep (parseInternalF (bs.length + 1)) (x :: bs) false).map Prod.fst := by
  rw [parse_eq]
  congr 1

/-- The fourteen recognised type-tag characters of the dispatch. -/
def respTags : List Char :=
  ['+', '-', ':', '$', '*', '_', '#', ',', '(', '!', '=', '%', '~', '>']

theorem tagOf_other (c : Char) (hc : c ∉ respTags) : tagOf c = Tag.tOther := by
  simp only [respTags, List.mem_cons, List.not_mem_nil, or_false, not_or] at hc
  obtain ⟨h1, h2, h3, h4, h5, h6, h7, h8, h9, h10, h11, h12, h13, h14⟩ := hc
  simp [tagOf, h1, h2, h3, h4, h5, h6, h7, h8, h9, h10, h11, h12, h13, h14]

theorem parseStep_plus (p : List Char → Bool → Option (RESP × List Char))
    (bs : List Char) (i : Bool) :
    parseStep p ('+' :: bs) i = stepSimpleString bs := rfl

theorem parseStep_minus (p : List Char → Bool → Option (RESP × List Char))
    (bs : List Char) (i : Bool) :
    parseStep p ('-' :: bs) i = stepSimpleError bs := rfl

theorem parseStep_colon (p : List Char → Bool → Option (RESP × List Char))
    (bs : List Char) (i : Bool) :
    parseStep p (':' :: bs) i = stepInteger bs := rfl

theorem parseStep_dollar (p : List Char → Bool → Option (RESP × List Char))
    (bs : List Char) (i : Bool) :
    parseStep p ('$' :: bs) i = stepBulkString bs := rfl

theorem parseStep_star (p : List Char → Bool → Option (RESP × List Char))
    (bs : List Char) (i : Bool) :
    parseStep p ('*' :: bs) i = stepArray p bs := rfl

theorem parseStep_underscore (p : List Char → Bool → Option (RESP × List Char))
    (bs : List Char) (i : Bool) :
    parseStep p ('_' :: bs) i = stepNull bs := rfl

theorem parseStep_hash (p : List Char → Bool → Option (RESP × List Char))
    (bs : List Char) (i : Bool) :
    parseStep p ('#' :: bs) i = stepBoolean bs := rfl

theorem parseStep_comma (p : List Char → Bool → Option (RESP × List Char))
    (bs : List Char) (i : Bool) :
    parseStep p (',' :: bs) i = stepDouble bs := rfl

theorem parseStep_lparen (p : List Char → Bool → Option (RESP × List Char))
    (bs : List Char) (i : Bool) :
    parseStep p ('(' :: bs) i = stepBigNumber bs := rfl

theorem parseStep_bang (p : List Char → Bool → Option (RESP × List Char))
    (bs : List Char) (i : Bool) :
    parseStep p ('!' :: bs) i = stepBulkError bs := rfl

theorem parseStep_eqsign (p : List Char → Bool → Option (RESP × List Char))
    (bs : List Char) (i : Bool) :
    parseStep p ('=' :: bs) i = stepVerbatim bs := rfl

theorem parseStep_percent (p : List Char → Bool → Option (RESP × List Char))
    (bs : List Char) (i : Bool) :
    parseStep p ('%' :: bs) i = stepMap p bs := rfl

theorem parseStep_tilde (p : List Char → Bool → Option (RESP × List Char))
    (bs : List Char) (i : Bool) :
    parseStep p ('~' :: bs) i = stepSet p bs := rfl

theorem parseStep_gt (p : List Char → Bool → Option (RESP × List Char))
    (bs : List Char) (i : Bool) :
    parseStep p ('>' :: bs) i = stepPush p bs i := rfl

theorem parse_numberZ_complete (d r : List Char) (n : Int)
    (hfree : CRLFfree d) (hn : parseI64 d = some n) :
    parse_numberZ (d ++ '\r' :: '\n' :: r) = some (n, r) := by
  simp only [parse_numberZ, parse_simple]
  rw [pu_complete d r hfree]
  simp [hn]

/-- s is the exact wire form of the value v when decoded as a nested element:
it yields v and consumes precisely s, whatever input follows. -/
def ElemCode (s : List Char) (v : RESP) : Prop :=
  ∀ t, parseInternalF ((s ++ t).length + 1) (s ++ t) true = some (v, t)

theorem ElemCode.run {s : List Char} {v : RESP} (h : ElemCode s v)
    (t : List Char) (F : Nat) (hF : (s ++ t).length + 1 ≤ F) :
    parseInternalF F (s ++ t) true = some (v, t) :=
  parseInternalF_mono _ _ hF _ _ _ (h t)

theorem elemsChain {es : List (List Char)} {vs : List RESP}
    (h : List.Forall₂ ElemCode es vs) :
    ∀ t F, (es.flatten ++ t).length + 1 ≤ F →
      elemsWith (fun bs => parseInternalF F bs true) es.length (es.flatten ++ t) =
        some (vs, t) := by
  induction h with
  | nil => intro t F hF; rfl
  | @cons s v es vs hcode htail ih =>
    intro t F hF
    have hjoin : (s :: es).flatten = s ++ es.flatten := rfl
    rw [hjoin, List.append_assoc] at hF ⊢
    simp only [List.length_cons, elemsWith]
    have hb : (s ++ (es.flatten ++ t)).length + 1 ≤ F := hF
    rw [hcode.run (es.flatten ++ t) F hb]
    simp only [Option.some_bind]
    have hb2 : (es.flatten ++ t).length + 1 ≤ F := by
      simp only [List.length_append] at hF ⊢
      omega
    rw [ih t F hb2]
    rfl

theorem elemsExhaust {es : List (List Char)} {vs : List RESP}
    (h : List.Forall₂ ElemCode es vs) :
    ∀ N F, es.length < N → es.flatten.length + 1 ≤ F →
      elemsWith (fun bs => parseInternalF F bs true) N es.flatten = none := by
  induction h with
  | nil =>
    intro N F hN hF
    obtain ⟨M, rfl⟩ : ∃ M, N = M + 1 := ⟨N - 1, by omega⟩
    simp only [elemsWith]
    rw [show (([] : List (List Char)).flatten : List Char) = [] from rfl,
      parseInternalF_nil]
    rfl
  | @cons s v es vs hcode htail ih =>
    intro N F hN hF
    obtain ⟨M, rfl⟩ : ∃ M, N = M + 1 := ⟨N - 1, by omega⟩
    simp only [elemsWith]
    have hjoin : (s :: es).flatten = s ++ es.flatten := rfl
    rw [hjoin] at hF ⊢
    rw [hcode.run es.flatten F hF]
    simp only [Option.some_bind]
    have hb2 : es.flatten.length + 1 ≤ F := by
      simp only [List.length_append] at hF
      omega
    rw [ih M F (by simpa using hN) hb2]
    rfl

/-- Every simple-form wire line of CR/LF-free content is an ElemCode once the
tag and terminator are attached; stated here for simple strings, which is
what the concrete witnesses use. -/
theorem ElemCode_simpleString (s : List Char) (hfree : CRLFfree s) :
    ElemCode ('+' :: (s ++ ['\r', '\n'])) (RESP.SimpleString s) := by
  intro t
  have hw : ('+' :: (s ++ ['\r', '\n'])) ++ t = '+' :: (s ++ '\r' :: '\n' :: t) := by
    simp
  rw [hw]
  simp only [List.length_cons]
  rw [parseInternalF_succ, parseStep_plus]
  simp only [stepSimpleString, parse_simple]
  rw [pu_complete s t hfree]
  rfl

theorem utf8Len_append (a b : List Char) :
    utf8Len (a ++ b) = utf8Len a + utf8Len b := by
  simp [utf8Len]

theorem utf8Len_pos (l : List Char) (h : l ≠ []) : 0 < utf8Len l := by
  cases l with
  | nil => exact absurd rfl h
  | cons c r =>
    have := Char.utf8Size_pos c
    simp only [utf8Len, List.map_cons, List.sum_cons]
    omega

/-- If a clean line d plus terminator plus rest reassembles a payload that
contains a CR or LF, then d is a proper prefix of the payload, hence strictly
shorter in UTF-8 bytes. -/
theorem utf8Len_lt_of_dirty_payload (payload body d r : List Char)
    (hw : payload ++ '\r' :: '\n' :: body = d ++ '\r' :: '\n' :: r)
    (hdfree : CRLFfree d) (hbad : '\r' ∈ payload ∨ '\n' ∈ payload) :
    utf8Len d < utf8Len payload := by
  have hmem : ∀ l : List Char, payload ++ l = d → False := by
    intro l hl
    rcases hbad with hb | hb
    · exact (hdfree '\r' (by rw [← hl]; exact List.mem_append_left _ hb)).1 rfl
    · exact (hdfree '\n' (by rw [← hl]; exact List.mem_append_left _ hb)).2 rfl
  rcases List.append_eq_append_iff.mp hw with ⟨a, ha1, ha2⟩ | ⟨c, hc1, hc2⟩
  · exact absurd ha1.symm (by intro hh; exact hmem a hh)
  · cases c with
    | nil =>
      have hpd : payload = d := by simpa using hc1
      exact absurd hpd (fun hh => hmem [] (by simp [hh]))
    | cons ch cr =>
      rw [hc1, utf8Len_append]
      have := utf8Len_pos (ch :: cr) (by simp)
      omega

/- ### split_whitespace facts -/

theorem splitWsAux_ne_nil : ∀ l acc tk, tk ∈ splitWsAux l acc → tk ≠ [] := by
  intro l
  induction l with
  | nil =>
    intro acc tk htk
    simp only [splitWsAux] at htk
    split_ifs at htk with hacc
    · simp at htk
    · simp only [List.mem_singleton] at htk
      subst htk
      intro hrev
      exact hacc (by simpa using congrArg List.isEmpty (congrArg List.reverse hrev))
  | cons c cs ih =>
    intro acc tk htk
    simp only [splitWsAux] at htk
    split_ifs at htk with hws hacc
    · exact ih [] tk htk
    · rcases List.mem_cons.mp htk with rfl | htk2
      · intro hrev
        exact hacc (by simpa using congrArg List.isEmpty (congrArg List.reverse hrev))
      · exact ih [] tk htk2
    · exact ih (c :: acc) tk htk

theorem splitWsAux_eq_nil_iff : ∀ l acc, splitWsAux l acc = [] ↔
    (acc = [] ∧ ∀ ch ∈ l, rustIsWhitespace ch) := by
  intro l
  induction l with
  | nil =>
    intro acc
    simp only [splitWsAux, List.not_mem_nil, false_implies, implies_true, and_true]
    split_ifs with hacc
    · simp [List.isEmpty_iff.mp hacc]
    · constructor
      · intro hh; simp at hh
      · intro hh; exact absurd (by simp [hh] : acc.isEmpty = true) hacc
  | cons c cs ih =>
    intro acc
    simp only [splitWsAux]
    split_ifs with hws hacc
    · rw [ih []]
      simp only [true_and, List.mem_cons]
      constructor
      · intro hh
        refine ⟨List.isEmpty_iff.mp hacc, ?_⟩
        intro ch hch
        rcases hch with rfl | hch2
        · exact hws
        · exact hh ch hch2
      · intro hh
        intro ch hch
        exact hh.2 ch (Or.inr hch)
    · constructor
      · intro hh; simp at hh
      · intro hh
        exact absurd (by simp [hh.1] : acc.isEmpty = true) hacc
    · constructor
      · intro hh
        rw [ih (c :: acc)] at hh
        simp at hh
      · intro hh
        exact absurd (hh.2 c (List.mem_cons_self c cs)) hws

theorem splitWs_eq_nil_iff (l : List Char) :
    splitWs l = [] ↔ ∀ ch ∈ l, rustIsWhitespace ch := by
  rw [splitWs, splitWsAux_eq_nil_iff]
  simp

theorem splitWs_ne_nil (l : List Char) (tk : List Char) (h : tk ∈ splitWs l) :
    tk ≠ [] :=
  splitWsAux_ne_nil l [] tk h

/- ### Aggregate frames: a declared count equal to the number of encoded
elements succeeds whatever trails; a larger declared count runs out of
elements and fails -/

theorem array_frame_success (numtext : List Char) (es : List (List Char))
    (vs : List RESP) (body : List Char)
    (hfree : CRLFfree numtext) (hcode : List.Forall₂ ElemCode es vs)
    (hn : parseI64 numtext = some (es.length : Int)) :
    RESP.parse ('*' :: (numtext ++ '\r' :: '\n' :: (es.flatten ++ body))) =
      some (RESP.Array vs) := by
  rw [parse_cons, parseStep_star]
  simp only [stepArray, parse_arrayW]
  rw [parse_numberZ_complete _ _ _ hfree hn]
  simp only [Option.some_bind, Int.toNat_natCast]
  rw [elemsChain hcode body _
    (by simp only [List.length_append, List.length_cons]; omega)]
  simp only [Option.map_some', Option.some_bind]
  have hlen := List.Forall₂.length_eq hcode
  rw [if_neg (by omega), if_neg (by omega),
    if_neg (by simp [Int.toNat_natCast, hlen])]
  rfl

theorem set_frame_success (numtext : List Char) (es : List (List Char))
    (vs : List RESP) (body : List Char)
    (hfree : CRLFfree numtext) (hcode : List.Forall₂ ElemCode es vs)
    (hn : parseI64 numtext = some (es.length : Int)) :
    RESP.parse ('~' :: (numtext ++ '\r' :: '\n' :: (es.flatten ++ body))) =
      some (RESP.Set vs) := by
  rw [parse_cons, parseStep_tilde]
  simp only [stepSet, parse_arrayW]
  rw [parse_numberZ_complete _ _ _ hfree hn]
  simp only [Option.some_bind, Int.toNat_natCast]
  rw [elemsChain hcode body _
    (by simp only [List.length_append, List.length_cons]; omega)]
  simp only [Option.map_some', Option.some_bind]
  have hlen := List.Forall₂.length_eq hcode
  rw [if_neg (by omega), if_neg (by simp [Int.toNat_natCast, hlen])]
  rfl

theorem push_frame_success (numtext : List Char) (es : List (List Char))
    (vs : List RESP) (body : List Char)
    (hfree : CRLFfree numtext) (hcode : List.Forall₂ ElemCode es vs)
    (hn : parseI64 numtext = some (es.length : Int)) :
    RESP.parse ('>' :: (numtext ++ '\r' :: '\n' :: (es.flatten ++ body))) =
      some (RESP.Push vs) := by
  rw [parse_cons, parseStep_gt]
  simp only [stepPush, parse_arrayW]
  rw [parse_numberZ_complete _ _ _ hfree hn]
  simp only [Option.some_bind, Int.toNat_natCast]
  rw [elemsChain hcode body _
    (by simp only [List.length_append, List.length_cons]; omega)]
  simp only [Option.map_some', Option.some_bind]
  have hlen := List.Forall₂.length_eq hcode
  rw [if_neg (by simp only [Bool.false_eq_true, or_false]; omega),
    if_neg (by simp [Int.toNat_natCast, hlen])]
  rfl

theorem array_frame_short (numtext : List Char) (es : List (List Char))
    (vs : List RESP) (m : Int)
    (hfree : CRLFfree numtext) (hcode : List.Forall₂ ElemCode es vs)
    (hm : parseI64 numtext = some m) (hlt : (es.length : Int) < m) :
    RESP.parse ('*' :: (numtext ++ '\r' :: '\n' :: es.flatten)) = none := by
  rw [parse_cons, parseStep_star]
  simp only [stepArray, parse_arrayW]
  rw [parse_numberZ_complete _ _ _ hfree hm]
  simp only [Option.some_bind]
  rw [elemsExhaust hcode m.toNat _ (by omega)
    (by simp only [List.length_append, List.length_cons]; omega)]
  rfl

theorem set_frame_short (numtext : List Char) (es : List (List Char))
    (vs : List RESP) (m : Int)
    (hfree : CRLFfree numtext) (hcode : List.Forall₂ ElemCode es vs)
    (hm : parseI64 numtext = some m) (hlt : (es.length : Int) < m) :
    RESP.parse ('~' :: (numtext ++ '\r' :: '\n' :: es.flatten)) = none := by
  rw [parse_cons, parseStep_tilde]
  simp only [stepSet, parse_arrayW]
  rw [parse_numberZ_complete _ _ _ hfree hm]
  simp only [Option.some_bind]
  rw [elemsExhaust hcode m.toNat _ (by omega)
    (by simp only [List.length_append, List.length_cons]; omega)]
  rfl

theorem push_frame_short (numtext : List Char) (es : List (List Char))
    (vs : List RESP) (m : Int)
    (hfree : CRLFfree numtext) (hcode : List.Forall₂ ElemCode es vs)
    (hm : parseI64 numtext = some m) (hlt : (es.length : Int) < m) :
    RESP.parse ('>' :: (numtext ++ '\r' :: '\n' :: es.flatten)) = none := by
  rw [parse_cons, parseStep_gt]
  simp only [stepPush, parse_arrayW]
  rw [parse_numberZ_complete _ _ _ hfree hm]
  simp only [Option.some_bind]
  rw [elemsExhaust hcode m.toNat _ (by omega)
    (by simp only [List.length_append, List.length_cons]; omega)]
  rfl

/- ### Bulk frames: one clean payload line after the length line -/

theorem dollar_frame (numtext payload body : List Char) (n : Int)
    (hfree : CRLFfree numtext) (hpfree : CRLFfree payload)
    (hn : parseI64 numtext = some n) (hne : n ≠ -1) :
    RESP.parse ('$' :: (numtext ++ '\r' :: '\n' :: (payload ++ '\r' :: '\n' :: body))) =
      if n < -1 then none
      else if n.toNat ≠ utf8Len payload then none
      else some (RESP.BulkString payload) := by
  rw [parse_cons, parseStep_dollar]
  simp only [stepBulkString, parse_bulk]
  rw [parse_numberZ_complete _ _ _ hfree hn]
  simp only [Option.some_bind]
  rw [if_neg hne]
  rw [show parse_simple (payload ++ '\r' :: '\n' :: body) = some (payload, body) from
    pu_complete _ _ hpfree]
  simp only [Option.map_some', Option.some_bind]
  by_cases h1 : n < -1
  · rw [if_pos h1, if_pos h1]
    rfl
  · rw [if_neg h1, if_neg hne, if_neg h1]
    by_cases h2 : n.toNat ≠ utf8Len payload
    · rw [if_pos h2, if_pos h2]
      rfl
    · rw [if_neg h2, if_neg h2]
      rfl

theorem bang_frame (numtext payload body : List Char) (n : Int)
    (hfree : CRLFfree numtext) (hpfree : CRLFfree payload)
    (hn : parseI64 numtext = some n) :
    RESP.parse ('!' :: (numtext ++ '\r' :: '\n' :: (payload ++ '\r' :: '\n' :: body))) =
      if n < 0 then none
      else if n.toNat ≠ utf8Len payload then none
      else some (RESP.BulkError payload) := by
  rw [parse_cons, parseStep_bang]
  simp only [stepBulkError, parse_bulk]
  rw [parse_numberZ_complete _ _ _ hfree hn]
  simp only [Option.some_bind]
  by_cases hne : n = -1
  · rw [if_pos hne]
    simp only [Option.some_bind]
    rw [if_pos (by omega), if_pos (by omega)]
    rfl
  · rw [if_neg hne]
    rw [show parse_simple (payload ++ '\r' :: '\n' :: body) = some (payload, body) from
      pu_complete _ _ hpfree]
    simp only [Option.map_some', Option.some_bind]
    by_cases h1 : n < 0
    · rw [if_pos h1, if_pos h1]
      rfl
    · rw [if_neg h1, if_neg h1]
      by_cases h2 : n.toNat ≠ utf8Len payload
      · rw [if_pos h2, if_pos h2]
        rfl
      · rw [if_neg h2, if_neg h2]
        rfl

theorem eqsign_frame (numtext payload body : List Char) (n : Int)
    (hfree : CRLFfree numtext) (hpfree : CRLFfree payload)
    (hn : parseI64 numtext = some n) :
    RESP.parse ('=' :: (numtext ++ '\r' :: '\n' :: (payload ++ '\r' :: '\n' :: body))) =
      if n < 4 then none
      else if n.toNat ≠ utf8Len payload then none
      else
        match splitOnceColon payload with
        | some q => if utf8Len q.1 ≠ 3 then none else some (RESP.VerbatimString q.1 q.2)
        | none => none := by
  rw [parse_cons, parseStep_eqsign]
  simp only [stepVerbatim, parse_bulk]
  rw [parse_numberZ_complete _ _ _ hfree hn]
  simp only [Option.some_bind]
  by_cases hne : n = -1
  · rw [if_pos hne]
    simp only [Option.some_bind]
    rw [if_pos (by omega), if_pos (by omega)]
    rfl
  · rw [if_neg hne]
    rw [show parse_simple (payload ++ '\r' :: '\n' :: body) = some (payload, body) from
      pu_complete _ _ hpfree]
    simp only [Option.map_some', Option.some_bind]
    by_cases h1 : n < 4
    · rw [if_pos h1, if_pos h1]
      rfl
    · rw [if_neg h1, if_neg h1]
      by_cases h2 : n.toNat ≠ utf8Len payload
      · rw [if_pos h2, if_pos h2]
        rfl
      · rw [if_neg h2, if_neg h2]
        cases hsp : splitOnceColon payload with
        | none => rfl
        | some q =>
          simp only [Option.some_bind]
          by_cases h3 : utf8Len q.1 ≠ 3
          · rw [if_pos h3, if_pos h3]
            rfl
          · rw [if_neg h3, if_neg h3]
            rfl

theorem dollar_frame_dirty (numtext payload body : List Char)
    (hfree : CRLFfree numtext)
    (hn : parseI64 numtext = some (utf8Len payload : Int))
    (hbad : '\r' ∈ payload ∨ '\n' ∈ payload) :
    RESP.parse ('$' :: (numtext ++ '\r' :: '\n' :: (payload ++ '\r' :: '\n' :: body))) =
      none := by
  rw [parse_cons, parseStep_dollar]
  simp only [stepBulkString, parse_bulk]
  rw [parse_numberZ_complete _ _ _ hfree hn]
  simp only [Option.some_bind]
  rw [if_neg (by omega : ¬((utf8Len payload : Int) = -1))]
  cases hps : parse_simple (payload ++ '\r' :: '\n' :: body) with
  | none => rfl
  | some q =>
    obtain ⟨q1, q2⟩ := q
    obtain ⟨hw, hqfree⟩ := pu_sound _ _ _ hps
    have hlt := utf8Len_lt_of_dirty_payload payload body q1 q2 hw hqfree hbad
    simp only [Option.map_some', Option.some_bind]
    rw [if_neg (by omega), if_neg (by omega),
      if_pos (by simp only [Int.toNat_natCast]; omega)]
    rfl

/- ### The null forms and the negative counts -/

theorem nullbulk_frame (fuel : Nat) (body : List Char) (i : Bool) :
    parseInternalF (fuel + 1) ('$' :: '-' :: '1' :: '\r' :: '\n' :: body) i =
      some (RESP.NullBulkString, body) := rfl

theorem nullarray_frame (fuel : Nat) (body : List Char) (i : Bool) :
    parseInternalF (fuel + 1) ('*' :: '-' :: '1' :: '\r' :: '\n' :: body) i =
      some (RESP.NullArray, body) := rfl

theorem bang_neg (numtext body : List Char) (m : Int)
    (hfree : CRLFfree numtext) (hm : parseI64 numtext = some m) (hneg : m < 0) :
    RESP.parse ('!' :: (numtext ++ '\r' :: '\n' :: body)) = none := by
  rw [parse_cons, parseStep_bang]
  simp only [stepBulkError, parse_bulk]
  rw [parse_numberZ_complete _ _ _ hfree hm]
  simp only [Option.some_bind]
  by_cases hne : m = -1
  · rw [if_pos hne]
    simp only [Option.some_bind]
    rw [if_pos hneg]
    rfl
  · rw [if_neg hne]
    cases hps : parse_simple body with
    | none => rfl
    | some q =>
      simp only [Option.map_some', Option.some_bind]
      rw [if_pos hneg]
      rfl

theorem eqsign_neg (numtext body : List Char) (m : Int)
    (hfree : CRLFfree numtext) (hm : parseI64 numtext = some m) (hneg : m < 0) :
    RESP.parse ('=' :: (numtext ++ '\r' :: '\n' :: body)) = none := by
  rw [parse_cons, parseStep_eqsign]
  simp only [stepVerbatim, parse_bulk]
  rw [parse_numberZ_complete _ _ _ hfree hm]
  simp only [Option.some_bind]
  by_cases hne : m = -1
  · rw [if_pos hne]
    simp only [Option.some_bind]
    rw [if_pos (by omega)]
    rfl
  · rw [if_neg hne]
    cases hps : parse_simple body with
    | none => rfl
    | some q =>
      simp only [Option.map_some', Option.some_bind]
      rw [if_pos (by omega)]
      rfl

theorem percent_neg (numtext body : List Char) (m : Int)
    (hfree : CRLFfree numtext) (hm : parseI64 numtext = some m) (hneg : m < 0) :
    RESP.parse ('%' :: (numtext ++ '\r' :: '\n' :: body)) = none := by
  rw [parse_cons, parseStep_percent]
  simp only [stepMap, parse_mapW]
  rw [parse_numberZ_complete _ _ _ hfree hm]
  simp only [Option.some_bind]
  rw [Int.toNat_of_nonpos (by omega)]
  simp only [pairsWith, Option.map_some', Option.some_bind]
  rw [if_pos hneg]
  rfl

theorem tilde_neg (numtext body : List Char) (m : Int)
    (hfree : CRLFfree numtext) (hm : parseI64 numtext = some m) (hneg : m < 0) :
    RESP.parse ('~' :: (numtext ++ '\r' :: '\n' :: body)) = none := by
  rw [parse_cons, parseStep_tilde]
  simp only [stepSet, parse_arrayW]
  rw [parse_numberZ_complete _ _ _ hfree hm]
  simp only [Option.some_bind]
  rw [Int.toNat_of_nonpos (by omega)]
  simp only [elemsWith, Option.map_some', Option.some_bind]
  rw [if_pos hneg]
  rfl

theorem gt_neg (numtext body : List Char) (m : Int)
    (hfree : CRLFfree numtext) (hm : parseI64 numtext = some m) (hneg : m < 0) :
    RESP.parse ('>' :: (numtext ++ '\r' :: '\n' :: body)) = none := by
  rw [parse_cons, parseStep_gt]
  simp only [stepPush, parse_arrayW]
  rw [parse_numberZ_complete _ _ _ hfree hm]
  simp only [Option.some_bind]
  rw [Int.toNat_of_nonpos (by omega)]
  simp only [elemsWith, Option.map_some', Option.some_bind]
  rw [if_pos (Or.inl hneg)]
  rfl

theorem dollar_lt_neg (numtext body : List Char) (m : Int)
    (hfree : CRLFfree numtext) (hm : parseI64 numtext = some m) (hneg : m < -1) :
    RESP.parse ('$' :: (numtext ++ '\r' :: '\n' :: body)) = none := by
  rw [parse_cons, parseStep_dollar]
  simp only [stepBulkString, parse_bulk]
  rw [parse_numberZ_complete _ _ _ hfree hm]
  simp only [Option.some_bind]
  rw [if_neg (by omega : ¬ m = -1)]
  cases hps : parse_simple body with
  | none => rfl
  | some q =>
    simp only [Option.map_some', Option.some_bind]
    rw [if_pos hneg]
    rfl

theorem star_lt_neg (numtext body : List Char) (m : Int)
    (hfree : CRLFfree numtext) (hm : parseI64 numtext = some m) (hneg : m < -1) :
    RESP.parse ('*' :: (numtext ++ '\r' :: '\n' :: body)) = none := by
  rw [parse_cons, parseStep_star]
  simp only [stepArray, parse_arrayW]
  rw [parse_numberZ_complete _ _ _ hfree hm]
  simp only [Option.some_bind]
  rw [Int.toNat_of_nonpos (by omega)]
  simp only [elemsWith, Option.map_some', Option.some_bind]
  rw [if_pos hneg]
  rfl

/- ### The claims -/

/-- C1 (amended): an Array, Set or Push frame whose declared count equals the
number of well-formed encoded elements decodes to exactly those elements in
input order, whatever input trails the last element; a declared count larger
than the number of available elements fails.  (The original claim also said
that more than n elements in the input fail; in fact the decoder leaves the
extra input unread and succeeds — see the counterexample.) -/
theorem claim_C1_aggregate_counts :
    (∀ (numtext : List Char) (es : List (List Char)) (vs : List RESP)
        (body : List Char),
      CRLFfree numtext → List.Forall₂ ElemCode es vs →
      parseI64 numtext = some (es.length : Int) →
        vs.length = es.length
        ∧ RESP.parse ('*' :: (numtext ++ '\r' :: '\n' :: (es.flatten ++ body))) =
            some (RESP.Array vs)
        ∧ RESP.parse ('~' :: (numtext ++ '\r' :: '\n' :: (es.flatten ++ body))) =
            some (RESP.Set vs)
        ∧ RESP.parse ('>' :: (numtext ++ '\r' :: '\n' :: (es.flatten ++ body))) =
            some (RESP.Push vs))
    ∧ (∀ (numtext : List Char) (es : List (List Char)) (vs : List RESP) (m : Int),
      CRLFfree numtext → List.Forall₂ ElemCode es vs →
      parseI64 numtext = some m → (es.length : Int) < m →
        RESP.parse ('*' :: (numtext ++ '\r' :: '\n' :: es.flatten)) = none
        ∧ RESP.parse ('~' :: (numtext ++ '\r' :: '\n' :: es.flatten)) = none
        ∧ RESP.parse ('>' :: (numtext ++ '\r' :: '\n' :: es.flatten)) = none) := by
  constructor
  · intro numtext es vs body hfree hcode hn
    exact ⟨(List.Forall₂.length_eq hcode).symm,
      array_frame_success numtext es vs body hfree hcode hn,
      set_frame_success numtext es vs body hfree hcode hn,
      push_frame_success numtext es vs body hfree hcode hn⟩
  · intro numtext es vs m hfree hcode hm hlt
    exact ⟨array_frame_short numtext es vs m hfree hcode hm hlt,
      set_frame_short numtext es vs m hfree hcode hm hlt,
      push_frame_short numtext es vs m hfree hcode hm hlt⟩

/-- C1 counterexample: the claim asserts that an input holding more elements
than the declared count fails; here a count of 1 followed by two well-formed
elements succeeds, decoding only the first element. -/
theorem claim_C1_counterexample :
    RESP.parse ("*1\r\n+a\r\n+b\r\n".toList) =
      some (RESP.Array [RESP.SimpleString ['a']]) := rfl

/-- C1 witness. -/
theorem claim_C1_witness :
    RESP.parse ("*2\r\n+a\r\n+b\r\n".toList) =
      some (RESP.Array [RESP.SimpleString ['a'], RESP.SimpleString ['b']]) := by
  have h := (claim_C1_aggregate_counts.1 ['2']
    ['+' :: (['a'] ++ ['\r', '\n']), '+' :: (['b'] ++ ['\r', '\n'])]
    [RESP.SimpleString ['a'], RESP.SimpleString ['b']] []
    (by decide)
    (List.Forall₂.cons (ElemCode_simpleString ['a'] (by decide))
      (List.Forall₂.cons (ElemCode_simpleString ['b'] (by decide)) List.Forall₂.nil))
    (by decide)).2.1
  exact h

/-- C2 (amended): a BulkString payload may NOT contain CR or LF.  When the
declared length is the payload byte length, a CR/LF-free payload decodes to
BulkString of exactly that payload; a payload containing any CR or LF makes
the whole decode fail. -/
theorem claim_C2_bulk_payload (numtext payload body : List Char)
    (hfree : CRLFfree numtext)
    (hn : parseI64 numtext = some (utf8Len payload : Int)) :
    (CRLFfree payload →
      RESP.parse ('$' :: (numtext ++ '\r' :: '\n' :: (payload ++ '\r' :: '\n' :: body))) =
        some (RESP.BulkString payload))
    ∧ (('\r' ∈ payload ∨ '\n' ∈ payload) →
      RESP.parse ('$' :: (numtext ++ '\r' :: '\n' :: (payload ++ '\r' :: '\n' :: body))) =
        none) := by
  constructor
  · intro hpfree
    rw [dollar_frame numtext payload body _ hfree hpfree hn (by omega)]
    rw [if_neg (by omega), if_neg (by simp [Int.toNat_natCast])]
  · intro hbad
    exact dollar_frame_dirty numtext payload body hfree hn hbad

/-- C2 counterexample: the claim asserts that a payload containing a bare CR
decodes; the frame with declared length 3 and payload a CR b fails instead. -/
theorem claim_C2_counterexample :
    RESP.parse ("$3\r\na\rb\r\n".toList) = none := rfl

/-- C2 witness. -/
theorem claim_C2_witness :
    RESP.parse ("$5\r\nHello\r\n".toList) =
      some (RESP.BulkString ['H', 'e', 'l', 'l', 'o']) := by
  have h := (claim_C2_bulk_payload ['5'] ['H', 'e', 'l', 'l', 'o'] []
    (by decide) (by decide)).1 (by decide)
  exact h

/-- C3 (amended): for the three length-prefixed types the check compares the
declared length against the UTF-8 BYTE length of the payload, not its
character count: any byte-length mismatch fails, and BulkString/BulkError
succeed exactly on a byte-length match. -/
theorem claim_C3_length_exact (numtext payload body : List Char) (n : Int)
    (hfree : CRLFfree numtext) (hpfree : CRLFfree payload)
    (hn : parseI64 numtext = some n) (hnn : 0 ≤ n) :
    (n.toNat ≠ utf8Len payload →
      RESP.parse ('$' :: (numtext ++ '\r' :: '\n' :: (payload ++ '\r' :: '\n' :: body))) =
        none
      ∧ RESP.parse ('!' :: (numtext ++ '\r' :: '\n' :: (payload ++ '\r' :: '\n' :: body))) =
        none
      ∧ RESP.parse ('=' :: (numtext ++ '\r' :: '\n' :: (payload ++ '\r' :: '\n' :: body))) =
        none)
    ∧ (n.toNat = utf8Len payload →
      RESP.parse ('$' :: (numtext ++ '\r' :: '\n' :: (payload ++ '\r' :: '\n' :: body))) =
        some (RESP.BulkString payload)
      ∧ RESP.parse ('!' :: (numtext ++ '\r' :: '\n' :: (payload ++ '\r' :: '\n' :: body))) =
        some (RESP.BulkError payload)) := by
  constructor
  · intro hne
    refine ⟨?_, ?_, ?_⟩
    · rw [dollar_frame numtext payload body _ hfree hpfree hn (by omega)]
      rw [if_neg (by omega), if_pos hne]
    · rw [bang_frame numtext payload body _ hfree hpfree hn]
      rw [if_neg (by omega), if_pos hne]
    · rw [eqsign_frame numtext payload body _ hfree hpfree hn]
      by_cases h4 : n < 4
      · rw [if_pos h4]
      · rw [if_neg h4, if_pos hne]
  · intro he
    constructor
    · rw [dollar_frame numtext payload body _ hfree hpfree hn (by omega)]
      rw [if_neg (by omega), if_neg (by omega)]
    · rw [bang_frame numtext payload body _ hfree hpfree hn]
      rw [if_neg (by omega), if_neg (by omega)]

/-- C3 counterexample: the claim says the payload CHARACTER count must equal
the declared length; a one-character, two-byte payload with declared length 2
decodes successfully, so the comparison is by bytes, not characters. -/
theorem claim_C3_counterexample :
    RESP.parse ("$2\r\né\r\n".toList) = some (RESP.BulkString ['é'])
    ∧ (['é'] : List Char).length = 1 := ⟨rfl, rfl⟩

/-- C3 witness. -/
theorem claim_C3_witness :
    RESP.parse ("!2\r\nHello\r\n".toList) = none
    ∧ RESP.parse ("!5\r\nHello\r\n".toList) =
        some (RESP.BulkError ['H', 'e', 'l', 'l', 'o']) := by
  refine ⟨?_, ?_⟩
  · exact ((claim_C3_length_exact ['2'] ['H', 'e', 'l', 'l', 'o'] [] 2
      (by decide) (by decide) (by decide) (by decide)).1 (by decide)).2.1
  · exact ((claim_C3_length_exact ['5'] ['H', 'e', 'l', 'l', 'o'] [] 5
      (by decide) (by decide) (by decide) (by decide)).2 (by decide)).2

/-- C4: a push frame is rejected whenever decoding is nested (the internal
flag is set), no matter how well-formed; at top level a push with a matching
non-negative count succeeds. -/
theorem claim_C4_push_top_only :
    (∀ (fuel : Nat) (bytes : List Char),
      parseInternalF fuel ('>' :: bytes) true = none)
    ∧ RESP.parse ("*1\r\n>1\r\n+Hello\r\n".toList) = none
    ∧ RESP.parse ("%1\r\n>0\r\n+a\r\n".toList) = none
    ∧ RESP.parse ("~1\r\n>0\r\n".toList) = none
    ∧ RESP.parse (">1\r\n>0\r\n".toList) = none
    ∧ (∀ (numtext : List Char) (es : List (List Char)) (vs : List RESP),
        CRLFfree numtext → List.Forall₂ ElemCode es vs →
        parseI64 numtext = some (es.length : Int) →
        RESP.parse ('>' :: (numtext ++ '\r' :: '\n' :: es.flatten)) =
          some (RESP.Push vs)) := by
  refine ⟨?_, rfl, rfl, rfl, rfl, ?_⟩
  · intro fuel bytes
    cases fuel with
    | zero => rfl
    | succ f =>
      rw [parseInternalF_succ, parseStep_gt]
      simp only [stepPush]
      cases h : parse_arrayW (parseInternalF f) bytes with
      | none => rfl
      | some a => simp
  · intro numtext es vs hfree hcode hn
    have h := push_frame_success numtext es vs [] hfree hcode hn
    rwa [List.append_nil] at h

/-- C4 witness. -/
theorem claim_C4_witness :
    RESP.parse (">1\r\n+Hello\r\n".toList) =
      some (RESP.Push [RESP.SimpleString ['H', 'e', 'l', 'l', 'o']]) := by
  have h := claim_C4_push_top_only.2.2.2.2.2 ['1']
    ['+' :: (['H', 'e', 'l', 'l', 'o'] ++ ['\r', '\n'])]
    [RESP.SimpleString ['H', 'e', 'l', 'l', 'o']]
    (by decide)
    (List.Forall₂.cons (ElemCode_simpleString ['H', 'e', 'l', 'l', 'o'] (by decide))
      List.Forall₂.nil)
    (by decide)
  exact h

/-- The seven tags whose wire form is a single CR-LF-terminated line. -/
def simpleTags : List Char := ['+', '-', ':', '_', '#', ',', '(']

/-- C5: every simple-form value reads one line terminated by the exact CR LF
pair: a successful decode forces the input after the tag to split as a line
with no embedded CR or LF, then CR LF, then the rest; inputs with a bare CR,
a bare LF, or no terminator fail (concrete instances included). -/
theorem claim_C5_simple_crlf :
    (∀ c ∈ simpleTags, ∀ (w : List Char) (v : RESP),
      RESP.parse (c :: w) = some v →
      ∃ d r, w = d ++ '\r' :: '\n' :: r ∧ CRLFfree d)
    ∧ RESP.parse ("+He\rllo\r\n".toList) = none
    ∧ RESP.parse ("+He\nllo\r\n".toList) = none
    ∧ RESP.parse (":12\r3\r\n".toList) = none
    ∧ RESP.parse ("+Hello".toList) = none := by
  refine ⟨?_, rfl, rfl, rfl, rfl⟩
  intro c hc w v h
  simp only [simpleTags, List.mem_cons, List.not_mem_nil, or_false] at hc
  rcases hc with rfl | rfl | rfl | rfl | rfl | rfl | rfl
  · rw [parse_cons, parseStep_plus] at h
    obtain ⟨a, ha, _⟩ := Option.map_eq_some'.mp h
    obtain ⟨q, hq, _⟩ := Option.map_eq_some'.mp ha
    obtain ⟨hw, hfr⟩ := pu_sound _ _ _ hq
    exact ⟨q.1, q.2, hw, hfr⟩
  · rw [parse_cons, parseStep_minus] at h
    obtain ⟨a, ha, _⟩ := Option.map_eq_some'.mp h
    obtain ⟨q, hq, _⟩ := Option.map_eq_some'.mp ha
    obtain ⟨hw, hfr⟩ := pu_sound _ _ _ hq
    exact ⟨q.1, q.2, hw, hfr⟩
  · rw [parse_cons, parseStep_colon] at h
    obtain ⟨a, ha, _⟩ := Option.map_eq_some'.mp h
    obtain ⟨b, hb, _⟩ := Option.map_eq_some'.mp ha
    obtain ⟨q, hq, _⟩ := Option.bind_eq_some.mp hb
    obtain ⟨hw, hfr⟩ := pu_sound _ _ _ hq
    exact ⟨q.1, q.2, hw, hfr⟩
  · rw [parse_cons, parseStep_underscore] at h
    obtain ⟨a, ha, _⟩ := Option.map_eq_some'.mp h
    obtain ⟨q, hq, _⟩ := Option.bind_eq_some.mp ha
    obtain ⟨hw, hfr⟩ := pu_sound _ _ _ hq
    exact ⟨q.1, q.2, hw, hfr⟩
  · rw [parse_cons, parseStep_hash] at h
    obtain ⟨a, ha, _⟩ := Option.map_eq_some'.mp h
    obtain ⟨q, hq, _⟩ := Option.bind_eq_some.mp ha
    obtain ⟨hw, hfr⟩ := pu_sound _ _ _ hq
    exact ⟨q.1, q.2, hw, hfr⟩
  · rw [parse_cons, parseStep_comma] at h
    obtain ⟨a, ha, _⟩ := Option.map_eq_some'.mp h
    obtain ⟨b, hb, _⟩ := Option.map_eq_some'.mp ha
    obtain ⟨q, hq, _⟩ := Option.bind_eq_some.mp hb
    obtain ⟨hw, hfr⟩ := pu_sound _ _ _ hq
    exact ⟨q.1, q.2, hw, hfr⟩
  · rw [parse_cons, parseStep_lparen] at h
    obtain ⟨a, ha, _⟩ := Option.map_eq_some'.mp h
    obtain ⟨b, hb, _⟩ := Option.map_eq_some'.mp ha
    obtain ⟨q, hq, _⟩ := Option.bind_eq_some.mp hb
    obtain ⟨hw, hfr⟩ := pu_sound _ _ _ hq
    exact ⟨q.1, q.2, hw, hfr⟩

/-- C5 witness. -/
theorem claim_C5_witness :
    ∃ d r, ("Hello\r\n".toList : List Char) = d ++ '\r' :: '\n' :: r ∧ CRLFfree d :=
  claim_C5_simple_crlf.1 '+' (by decide) "Hello\r\n".toList
    (RESP.SimpleString ['H', 'e', 'l', 'l', 'o']) rfl

/-- The lexical condition parse_big_number places on its line. -/
def bigOk : List Char → Prop
  | [] => False
  | first :: rest =>
    (first = '+' ∨ first = '-' ∨ first.isDigit = true) ∧ rest.all Char.isDigit = true

/-- C6 (amended): a BigNumber decodes exactly when the line is nonempty, its
first character is a sign or digit, and every later character is a digit; the
digits may be ABSENT after a sign, so a lone plus or minus line is accepted
(the plus stripped, the minus kept); an empty line fails.  The stored text
strips a leading plus and keeps a leading minus. -/
theorem claim_C6_bignumber :
    (∀ (w : List Char) (v : RESP),
      RESP.parse ('(' :: w) = some v ↔
        ∃ d r, w = d ++ '\r' :: '\n' :: r ∧ CRLFfree d ∧ bigOk d ∧
          v = RESP.BigNumber (stripPlus d))
    ∧ RESP.parse ("(+123\r\n".toList) = some (RESP.BigNumber ['1', '2', '3'])
    ∧ RESP.parse ("(123\r\n".toList) = some (RESP.BigNumber ['1', '2', '3'])
    ∧ RESP.parse ("(-123\r\n".toList) = some (RESP.BigNumber ['-', '1', '2', '3'])
    ∧ RESP.parse ("(12a\r\n".toList) = none := by
  refine ⟨?_, rfl, rfl, rfl, rfl⟩
  intro w v
  constructor
  · intro h
    rw [parse_cons, parseStep_lparen] at h
    obtain ⟨a, ha, hv⟩ := Option.map_eq_some'.mp h
    obtain ⟨b, hb, hab⟩ := Option.map_eq_some'.mp ha
    obtain ⟨q, hq, h2⟩ := Option.bind_eq_some.mp hb
    obtain ⟨hw, hfr⟩ := pu_sound _ _ _ hq
    refine ⟨q.1, q.2, hw, hfr, ?_, ?_⟩
    · split at h2
      · simp at h2
      · rename_i first rest heq
        split_ifs at h2 with hcond
        rw [heq]
        exact hcond
    · split at h2
      · simp at h2
      · split_ifs at h2 with hcond
        have hbv := Option.some_inj.mp h2
        subst hbv
        subst hab
        exact hv.symm
  · rintro ⟨d, r, rfl, hfr, hok, rfl⟩
    rw [parse_cons, parseStep_lparen]
    have hpbn : parse_big_number (d ++ '\r' :: '\n' :: r) = some (stripPlus d, r) := by
      simp only [parse_big_number, parse_simple]
      rw [pu_complete _ _ hfr]
      simp only [Option.some_bind]
      cases d with
      | nil => exact hok.elim
      | cons first rest =>
        have hok2 : (first = '+' ∨ first = '-' ∨ first.isDigit = true) ∧
            rest.all Char.isDigit = true := hok
        show (if (first = '+' ∨ first = '-' ∨ first.isDigit = true) ∧
            rest.all Char.isDigit = true
          then some (stripPlus (first :: rest), r) else none) =
          some (stripPlus (first :: rest), r)
        rw [if_pos hok2]
    simp only [stepBigNumber]
    rw [hpbn]
    rfl

/-- C6 counterexample: the claim requires at least one digit after the
optional sign, so a line holding a lone plus should fail; the decoder
accepts it and stores the empty text. -/
theorem claim_C6_counterexample :
    RESP.parse ("(+\r\n".toList) = some (RESP.BigNumber []) := rfl

/-- C6 witness. -/
theorem claim_C6_witness :
    RESP.parse ("(42\r\n".toList) = some (RESP.BigNumber ['4', '2']) :=
  (claim_C6_bignumber.1 "42\r\n".toList (RESP.BigNumber ['4', '2'])).mpr
    ⟨['4', '2'], [], rfl, by decide, ⟨Or.inr (Or.inr rfl), rfl⟩, rfl⟩

/-- C7: a length of -1 denotes null exactly for BulkString and Array, with no
payload line and no elements consumed (the rest of the input is returned
untouched); every negative count fails for BulkError, VerbatimString, Map,
Set and Push; and every length below -1 fails for BulkString and Array. -/
theorem claim_C7_null_lengths :
    (∀ (fuel : Nat) (body : List Char) (i : Bool),
      parseInternalF (fuel + 1) ('$' :: '-' :: '1' :: '\r' :: '\n' :: body) i =
        some (RESP.NullBulkString, body)
      ∧ parseInternalF (fuel + 1) ('*' :: '-' :: '1' :: '\r' :: '\n' :: body) i =
        some (RESP.NullArray, body))
    ∧ (∀ (numtext body : List Char) (m : Int), CRLFfree numtext →
        parseI64 numtext = some m → m < 0 →
        RESP.parse ('!' :: (numtext ++ '\r' :: '\n' :: body)) = none
        ∧ RESP.parse ('=' :: (numtext ++ '\r' :: '\n' :: body)) = none
        ∧ RESP.parse ('%' :: (numtext ++ '\r' :: '\n' :: body)) = none
        ∧ RESP.parse ('~' :: (numtext ++ '\r' :: '\n' :: body)) = none
        ∧ RESP.parse ('>' :: (numtext ++ '\r' :: '\n' :: body)) = none)
    ∧ (∀ (numtext body : List Char) (m : Int), CRLFfree numtext →
        parseI64 numtext = some m → m < -1 →
        RESP.parse ('$' :: (numtext ++ '\r' :: '\n' :: body)) = none
        ∧ RESP.parse ('*' :: (numtext ++ '\r' :: '\n' :: body)) = none) := by
  refine ⟨?_, ?_, ?_⟩
  · intro fuel body i
    exact ⟨nullbulk_frame fuel body i, nullarray_frame fuel body i⟩
  · intro numtext body m hfree hm hneg
    exact ⟨bang_neg numtext body m hfree hm hneg,
      eqsign_neg numtext body m hfree hm hneg,
      percent_neg numtext body m hfree hm hneg,
      tilde_neg numtext body m hfree hm hneg,
      gt_neg numtext body m hfree hm hneg⟩
  · intro numtext body m hfree hm hneg
    exact ⟨dollar_lt_neg numtext body m hfree hm hneg,
      star_lt_neg numtext body m hfree hm hneg⟩

/-- C7 witness. -/
theorem claim_C7_witness :
    RESP.parse ("$-1\r\n".toList) = some RESP.NullBulkString
    ∧ RESP.parse ("*-1\r\n".toList) = some RESP.NullArray
    ∧ RESP.parse ("!-1\r\n".toList) = none
    ∧ RESP.parse ("~-1\r\n".toList) = none
    ∧ RESP.parse ("$-2\r\n".toList) = none := by
  refine ⟨?_, ?_, ?_, ?_, ?_⟩
  · rw [parse_eq,
      show parseInternalF (("$-1\r\n".toList).length + 1) ("$-1\r\n".toList) false =
        some (RESP.NullBulkString, []) from (claim_C7_null_lengths.1 5 [] false).1]
    rfl
  · rw [parse_eq,
      show parseInternalF (("*-1\r\n".toList).length + 1) ("*-1\r\n".toList) false =
        some (RESP.NullArray, []) from (claim_C7_null_lengths.1 5 [] false).2]
    rfl
  · exact (claim_C7_null_lengths.2.1 ['-', '1'] [] (-1)
      (by decide) (by decide) (by decide)).1
  · exact (claim_C7_null_lengths.2.1 ['-', '1'] [] (-1)
      (by decide) (by decide) (by decide)).2.2.2.1
  · exact (claim_C7_null_lengths.2.2 ['-', '2'] [] (-2)
      (by decide) (by decide) (by decide)).1

/-- C8 (amended): a VerbatimString frame decodes exactly when the declared
length is at least 4, equals the UTF-8 BYTE length of the payload, and the
payload splits at its first colon into an encoding of exactly 3 BYTES and the
remaining data; no colon, a wrong-size encoding, or a length mismatch fails.
The counterexample shows the 3-unit checks are byte counts, not character
counts. -/
theorem claim_C8_verbatim :
    (∀ (numtext payload body : List Char) (n : Int),
      CRLFfree numtext → CRLFfree payload → parseI64 numtext = some n →
      RESP.parse ('=' :: (numtext ++ '\r' :: '\n' :: (payload ++ '\r' :: '\n' :: body))) =
        if n < 4 then none
        else if n.toNat ≠ utf8Len payload then none
        else
          match splitOnceColon payload with
          | some q => if utf8Len q.1 ≠ 3 then none else some (RESP.VerbatimString q.1 q.2)
          | none => none)
    ∧ RESP.parse ("=4\r\ntxt:\r\n".toList) = some (RESP.VerbatimString ['t', 'x', 't'] [])
    ∧ RESP.parse ("=10\r\ntxt:Hello\r\n".toList) = none
    ∧ RESP.parse ("=5\r\nabcde\r\n".toList) = none := by
  refine ⟨?_, rfl, rfl, rfl⟩
  intro numtext payload body n hfree hpfree hn
  exact eqsign_frame numtext payload body n hfree hpfree hn

/-- C8 counterexample: the claim requires an exactly-3-CHARACTER encoding;
the euro sign is one character of three bytes and is accepted as a whole
encoding, so the check counts bytes, not characters. -/
theorem claim_C8_counterexample :
    RESP.parse ("=5\r\n€:x\r\n".toList) = some (RESP.VerbatimString ['€'] ['x'])
    ∧ (['€'] : List Char).length = 1 := ⟨rfl, rfl⟩

/-- C8 witness. -/
theorem claim_C8_witness :
    RESP.parse ("=9\r\ntxt:Hello\r\n".toList) =
      some (RESP.VerbatimString ['t', 'x', 't'] ['H', 'e', 'l', 'l', 'o']) := by
  have h := claim_C8_verbatim.1 ['9'] ("txt:Hello".toList) [] 9
    (by decide) (by decide) (by decide)
  rw [show ('=' :: (['9'] ++ '\r' :: '\n' :: ("txt:Hello".toList ++ '\r' :: '\n' :: [])) :
      List Char) = "=9\r\ntxt:Hello\r\n".toList from rfl] at h
  rw [h]
  rfl

/-- C9: an input whose first character is none of the recognised type tags is
decoded as an inline command: the whole input, first character included, is
split on runs of whitespace into nonempty tokens, failing exactly when every
character is whitespace.  (The dispatch recognises fourteen tag characters.) -/
theorem claim_C9_inline :
    (∀ (c : Char) (w : List Char), c ∉ respTags →
      (RESP.parse (c :: w) =
        if splitWs (c :: w) = [] then none
        else some (RESP.Inline (splitWs (c :: w))))
      ∧ (splitWs (c :: w) = [] ↔ ∀ ch ∈ c :: w, rustIsWhitespace ch)
      ∧ (∀ tk ∈ splitWs (c :: w), tk ≠ []))
    ∧ RESP.parse ("PING".toList) = some (RESP.Inline [['P', 'I', 'N', 'G']])
    ∧ RESP.parse ("ECHO hello world".toList) =
        some (RESP.Inline [['E', 'C', 'H', 'O'], ['h', 'e', 'l', 'l', 'o'],
          ['w', 'o', 'r', 'l', 'd']])
    ∧ RESP.parse ("   ".toList) = none := by
  refine ⟨?_, rfl, rfl, rfl⟩
  intro c w hc
  refine ⟨?_, splitWs_eq_nil_iff (c :: w), splitWs_ne_nil (c :: w)⟩
  rw [parse_cons]
  have ht := tagOf_other c hc
  have hstep : parseStep (parseInternalF (w.length + 1)) (c :: w) false =
      stepInline c w := by
    simp only [parseStep, ht]
  rw [hstep]
  simp only [stepInline, parse_inline]
  have hfilter : (splitWs (c :: w)).filter (fun t => !t.isEmpty) = splitWs (c :: w) :=
    List.filter_eq_self.mpr (fun tk htk => by
      simpa using splitWs_ne_nil (c :: w) tk htk)
  rw [hfilter]
  by_cases hnil : splitWs (c :: w) = []
  · rw [if_pos (by simp [hnil] : (splitWs (c :: w)).isEmpty = true), if_pos hnil]
    rfl
  · rw [if_neg (by simp [List.isEmpty_iff, hnil] : ¬(splitWs (c :: w)).isEmpty = true),
      if_neg hnil]
    rfl

/-- C9 witness. -/
theorem claim_C9_witness :
    RESP.parse ("ECHO hi".toList) =
      some (RESP.Inline [['E', 'C', 'H', 'O'], ['h', 'i']]) := by
  have h := (claim_C9_inline.1 'E' ("CHO hi".toList) (by decide)).1
  rw [show ('E' :: "CHO hi".toList : List Char) = "ECHO hi".toList from rfl] at h
  rw [h]
  rfl

/-- C10: when a tagged decode succeeds leaving input unread, the decoder
never looked past what it consumed: the same value is returned for the
original input and for the input extended by any suffix. -/
theorem claim_C10_trailing_ignored (s t : List Char) (v : RESP) (rest : List Char)
    (h : parseInternalF (s.length + 1) s false = some (v, rest)) (hne : rest ≠ []) :
    RESP.parse s = some v ∧ RESP.parse (s ++ t) = some v := by
  constructor
  · rw [parse_eq, h]
    rfl
  · rw [parse_eq]
    have h2 := parseInternalF_append (s.length + 1) s false (v, rest) t h hne
    have h3 := parseInternalF_mono (s.length + 1) ((s ++ t).length + 1)
      (by simp only [List.length_append]; omega) _ _ _ h2
    rw [h3]
    rfl

/-- C10 witness. -/
theorem claim_C10_witness :
    RESP.parse ("+a\r\nX".toList) = some (RESP.SimpleString ['a'])
    ∧ RESP.parse ("+a\r\nX".toList ++ "!".toList) = some (RESP.SimpleString ['a']) :=
  claim_C10_trailing_ignored ("+a\r\nX".toList) ("!".toList)
    (RESP.SimpleString ['a']) ['X'] rfl (by decide)

end RespParser
